import Mathlib

/-!
Verification of the deepLuna translation-database engine.

The repository ships the editor surface (`luna/ui/translation_window.py`),
the unit tests (`tests/test_translation_db.py`) and uses a translation-core
module `luna.translation_db` whose source file is not part of the tree.
Functions living in `translation_window.py` (`commit_conflict_resolution`,
`import_legacy_updates`, `update_selected_scene_tl_percent`,
`save_charswap_config`, `compare_scenes`) are embedded directly from that
source.  Core functions of `luna.translation_db` (`parse_script_cmds`,
`generate_linebroken_text_map`, `translated_percent`, the store mutators and
the re-encoder) are modelled from the specification and validated against the
unit tests in `tests/test_translation_db.py`.

Strings are embedded as `List Char`; the opcode parser works on the decoded
character list of the scene's text segment.
-/

namespace DeepLuna

/-! ## Character classes and decimal digits -/

/-- Decimal digit test, mirroring Python's `'0' <= c <= '9'` checks. -/
def isDigitC (c : Char) : Bool := decide ('0' ≤ c) && decide (c ≤ '9')

/-- Numeric value of a digit character. -/
def digitVal (c : Char) : Nat := c.toNat - 48

/-- Value of a decimal digit string, as Python's `int()` computes it on a
run of digits. -/
def digitsToNat (ds : List Char) : Nat := ds.foldl (fun a c => a * 10 + digitVal c) 0

/-- Decimal digit characters of `n`, most significant first (empty for 0). -/
def natDigits (n : Nat) : List Char := (Nat.digits 10 n).reverse.map (fun d => Char.ofNat (48 + d))

/-- Zero-padded six-wide decimal rendering of an offset, as in the scene
scripts (`$043897`). -/
def pad6 (n : Nat) : List Char := List.replicate (6 - (natDigits n).length) '0' ++ natDigits n

/-! ## List splitting on a separator character -/

/-- Split a character list on a separator character, like Python's
`str.split(sep)`: `n` separators yield `n+1` (possibly empty) chunks. -/
def splitOnChar (sep : Char) : List Char → List (List Char)
  | [] => [[]]
  | x :: xs =>
    if x = sep then [] :: splitOnChar sep xs
    else
      match splitOnChar sep xs with
      | s :: ss => (x :: s) :: ss
      | [] => [[x]]

theorem splitOnChar_ne_nil (sep : Char) (l : List Char) : splitOnChar sep l ≠ [] := by
  induction l with
  | nil => simp [splitOnChar]
  | cons x xs ih =>
    simp only [splitOnChar]
    split
    · simp
    · cases h : splitOnChar sep xs with
      | nil => simp
      | cons s ss => simp

theorem splitOnChar_of_not_mem (sep : Char) (l : List Char) (h : sep ∉ l) :
    splitOnChar sep l = [l] := by
  induction l with
  | nil => rfl
  | cons x xs ih =>
    simp only [List.mem_cons, not_or] at h
    simp only [splitOnChar]
    rw [if_neg (fun hx => h.1 hx.symm), ih h.2]

theorem splitOnChar_append_sep (sep : Char) (l1 l2 : List Char) (h : sep ∉ l1) :
    splitOnChar sep (l1 ++ sep :: l2) = l1 :: splitOnChar sep l2 := by
  induction l1 with
  | nil => simp [splitOnChar]
  | cons x xs ih =>
    simp only [List.mem_cons, not_or] at h
    simp only [List.cons_append, splitOnChar]
    rw [if_neg (fun hx => h.1 hx.symm)]
    rw [show xs.append (sep :: l2) = xs ++ sep :: l2 from rfl, ih h.2]

/-! ## The opcode parser (modelled)

Modelled from the spec: `luna.translation_db.TranslationDb.parse_script_cmds`
is not part of the source tree.  The model follows section 4.1 of the
specification — the stream is a `;`-terminated command sequence; text-block
commands (tag starting with `_ZM`) carry a parenthesized operand list whose
operands are separated by the forced-newline separator `^`, each operand being
`$` + zero-padded decimal offset with optional `@`-prefixed pre-modifiers and
a trailing post-modifier run shared by the whole group; message-start commands
(`_MSAD`) carry a single offset and are glued to an immediately preceding
text-block command unless that command ended in a dangling separator.  The
concrete tag and separator syntax is fixed by `tests/test_translation_db.py`.
-/

/-- One parsed text reference, mirroring `TranslationDb.TextCommand`. -/
structure TextCommand where
  offset : Nat
  jp_hash : List Char
  page_number : Nat
  modifiers : List (List Char)
  has_forced_newline : Bool
  is_glued : Bool
deriving DecidableEq, Repr

/-- Parser state between commands: was the previous command a text-block
command, and did it end in a dangling forced-newline separator. -/
structure PState where
  prevTextBlock : Bool
  prevDangling : Bool
deriving DecidableEq, Repr

/-- Characters allowed inside a modifier tag name: anything except the
structural characters of the opcode syntax. -/
def isModChar (c : Char) : Bool :=
  !(c = '@' || c = '$' || c = '^' || c = '(' || c = ')' || c = ';')

/-- Parse a run of zero or more `@`-prefixed modifier tags (`@k@e`), failing
on anything else. -/
def parseModRun (l : List Char) : Option (List (List Char)) :=
  match splitOnChar '@' l with
  | [] :: names =>
    if names.all (fun n => !n.isEmpty && n.all isModChar) then
      some (names.map (fun n => '@' :: n))
    else none
  | _ => none

/-- One `^`-separated segment of a text-block operand list: either an offset
operand with pre- and post-modifier runs, or a bare modifier run (the form a
dangling separator leaves behind). -/
inductive Seg where
  | operand (pre : List (List Char)) (off : Nat) (post : List (List Char))
  | modsOnly (run : List (List Char))
deriving DecidableEq, Repr

/-- Parse one segment once the characters up to the first `$` have been
dropped: an empty remainder means the segment holds no offset and is a bare
modifier run, otherwise the remainder is the offset digits plus the
post-modifier run. -/
def parseSegDollar (seg : List Char) : List Char → Option Seg
  | [] =>
    match parseModRun seg with
    | some run => some (.modsOnly run)
    | none => none
  | _ :: r2 =>
    let pre := seg.takeWhile (· ≠ '$')
    let ds := r2.takeWhile isDigitC
    let post := r2.dropWhile isDigitC
    if ds.isEmpty then none
    else
      match parseModRun pre, parseModRun post with
      | some pms, some qms => some (.operand pms (digitsToNat ds) qms)
      | _, _ => none

/-- Parse one segment. -/
def parseSeg (seg : List Char) : Option Seg := parseSegDollar seg (seg.dropWhile (· ≠ '$'))

/-- Parse the `^`-separated segments of an operand list.  All segments but
the last must be plain offset operands (no trailing modifiers of their own);
the last one carries the shared trailing modifier run, and decides, by
holding no offset, whether the separator before it dangled. -/
def parseSegs : List (List Char) → Option (List (List (List Char) × Nat) × List (List Char) × Bool)
  | [] => none
  | [last] =>
    match parseSeg last with
    | some (.operand pre off post) => some ([(pre, off)], post, false)
    | some (.modsOnly run) => some ([], run, true)
    | none => none
  | s :: rest =>
    match parseSeg s, parseSegs rest with
    | some (.operand pre off post), some (ops, trailing, dangling) =>
      if post.isEmpty then some ((pre, off) :: ops, trailing, dangling) else none
    | _, _ => none

/-- Parse a text-block operand list (the text between the parentheses):
returns the operands, the shared trailing modifier run and whether the list
ended in a dangling forced-newline separator.  A list with no offset operand
at all is malformed. -/
def parseBody (body : List Char) :
    Option (List (List (List Char) × Nat) × List (List Char) × Bool) :=
  match parseSegs (splitOnChar '^' body) with
  | some (ops, trailing, dangling) =>
    if ops.isEmpty then none else some (ops, trailing, dangling)
  | none => none

/-- Build the `TextCommand`s of one text-block command: every operand except
the last was followed by a forced-newline separator; the last is marked only
when the separator dangled.  A nonempty pre-modifier run marks glue. -/
def buildOps (lookup : Nat → Option (List Char)) (dangling : Bool)
    (trailing : List (List Char)) : List (List (List Char) × Nat) → Option (List TextCommand)
  | [] => some []
  | [(pre, off)] =>
    match lookup off with
    | some h => some [⟨off, h, 0, pre ++ trailing, dangling, !pre.isEmpty⟩]
    | none => none
  | (pre, off) :: rest =>
    match lookup off, buildOps lookup dangling trailing rest with
    | some h, some tcs => some (⟨off, h, 0, pre ++ trailing, true, !pre.isEmpty⟩ :: tcs)
    | _, _ => none

/-- Parse the operand of a message-start command: the characters after
`_MSAD($`, which must be the offset digits and the closing parenthesis. -/
def parseMsadBody (lookup : Nat → Option (List Char)) (st : PState) (r2 : List Char) :
    Option (List TextCommand × PState) :=
  let ds := r2.takeWhile isDigitC
  if r2.dropWhile isDigitC = [')'] then
    if ds.isEmpty then none
    else
      match lookup (digitsToNat ds) with
      | some h =>
        some ([⟨digitsToNat ds, h, 0, [], false, st.prevTextBlock && !st.prevDangling⟩],
          ⟨false, false⟩)
      | none => none
  else none

/-- Parse the parenthesized part of a text-block command (the characters
after the opening parenthesis, including the closing one). -/
def parseZmBody (lookup : Nat → Option (List Char)) (r1 : List Char) :
    Option (List TextCommand × PState) :=
  if r1.getLast? = some ')' then
    match parseBody r1.dropLast with
    | some (ops, trailing, dangling) =>
      match buildOps lookup dangling trailing ops with
      | some tcs => some (tcs, ⟨true, dangling⟩)
      | none => none
    | none => none
  else none

/-- Skip over the rest of a text-block command tag and parse the operand
list that follows the opening parenthesis. -/
def parseZmTail (lookup : Nat → Option (List Char)) (tl : List Char) :
    Option (List TextCommand × PState) :=
  match tl.dropWhile (· ≠ '(') with
  | _ :: r1 => parseZmBody lookup r1
  | [] => none

/-- Parse one `;`-terminated command.  `_MSAD` is the message-start command,
tags starting `_ZM` are text-block commands, anything else is skipped and
produces no reference. -/
def parseCommand (lookup : Nat → Option (List Char)) (cmd : List Char) (st : PState) :
    Option (List TextCommand × PState) :=
  match cmd with
  | c0 :: c1 :: c2 :: rest3 =>
    if c0 = '_' && c1 = 'Z' && c2 = 'M' then
      parseZmTail lookup rest3
    else if c0 = '_' && c1 = 'M' && c2 = 'S' then
      match rest3 with
      | c3 :: c4 :: c5 :: c6 :: r2 =>
        if c3 = 'A' && c4 = 'D' && c5 = '(' && c6 = '$' then parseMsadBody lookup st r2
        else some ([], ⟨false, false⟩)
      | _ => some ([], ⟨false, false⟩)
    else some ([], ⟨false, false⟩)
  | _ => some ([], ⟨false, false⟩)

/-- Parse a list of commands, threading the glue state. -/
def parseCmdList (lookup : Nat → Option (List Char)) :
    List (List Char) → PState → Option (List TextCommand)
  | [], _ => some []
  | c :: cs, st =>
    match parseCommand lookup c st with
    | some (tcs, st') =>
      match parseCmdList lookup cs st' with
      | some rest => some (tcs ++ rest)
      | none => none
    | none => none

/-- Modelled from the spec: `TranslationDb.parse_script_cmds` (absent from
the source tree).  Scene script text → ordered `TextCommand` list; the
`lookup` argument plays the role of the offset → content-hash table, and an
offset missing from it is a hard parse failure. -/
def parse_script_cmds (lookup : Nat → Option (List Char)) (s : List Char) :
    Option (List TextCommand) :=
  let parts := splitOnChar ';' s
  if parts.getLast? = some [] then parseCmdList lookup parts.dropLast ⟨false, false⟩
  else none

/-! ## The re-encoder (modelled)

Modelled from the spec: the re-encoder of section 4.6 (part of
`TranslationDb.generate_script_text_mrg`, absent from the source tree)
regenerates an opcode-syntax-compatible stream from a parsed `TextCommand`
sequence, reproducing modifier tags and command boundaries.  Each reference
is emitted as its own command: glue without modifiers round-trips as a
message-start command, everything else as a text-block command, with a
dangling separator reproducing a forced newline. -/

/-- Concatenate a modifier run back into source syntax. -/
def flattenMods (ms : List (List Char)) : List Char := ms.foldr (· ++ ·) []

/-- Re-encode one text reference as one opcode command (without the
terminating semicolon). -/
def encodeCmd (tc : TextCommand) : List Char :=
  if tc.is_glued && tc.modifiers.isEmpty then
    '_' :: 'M' :: 'S' :: 'A' :: 'D' :: '(' :: '$' :: (pad6 tc.offset ++ [')'])
  else if tc.is_glued then
    '_' :: 'Z' :: 'M' :: '(' ::
      (flattenMods tc.modifiers ++ '$' :: pad6 tc.offset ++
        (if tc.has_forced_newline then ['^', ')'] else [')']))
  else
    '_' :: 'Z' :: 'M' :: '(' ::
      ('$' :: pad6 tc.offset ++
        (if tc.has_forced_newline then '^' :: (flattenMods tc.modifiers ++ [')'])
         else flattenMods tc.modifiers ++ [')']))

/-- Re-encode a parsed reference sequence as a `;`-terminated command
stream. -/
def reencode_script (cmds : List TextCommand) : List Char :=
  cmds.foldr (fun tc acc => encodeCmd tc ++ ';' :: acc) []

/-- The offset → content-hash table the unit tests use: a `defaultdict`
resolving every offset to the same hash. -/
def testLookup : Nat → Option (List Char) := fun _ => some "a content hash".data

/-- C3: a dangling forced-newline separator (`^` directly before `)`)
marks the preceding operand `has_forced_newline = true`, produces no
reference for the missing operand, and forces `is_glued = false` on the
message-start command that follows; without the dangling separator the same
message-start command is glued (`tests/test_translation_db.py`,
`test_forced_newline_dangling_glue` and `test_msad_glue`). -/
theorem parse_dangling_newline_and_msad_glue :
    parse_script_cmds testLookup "_ZMbc419($043897^@n);_MSAD($014370);".data =
      some [⟨43897, "a content hash".data, 0, ["@n".data], true, false⟩,
            ⟨14370, "a content hash".data, 0, [], false, false⟩] ∧
    parse_script_cmds testLookup "_ZMbc419($043897@n);_MSAD($014370);".data =
      some [⟨43897, "a content hash".data, 0, ["@n".data], false, false⟩,
            ⟨14370, "a content hash".data, 0, [], false, true⟩] := by
  constructor <;> rfl

/-! ## Round-trip: digit rendering -/

theorem digitVal_ofNat {d : Nat} (h : d < 10) : digitVal (Char.ofNat (48 + d)) = d := by
  interval_cases d <;> decide

theorem isDigitC_ofNat {d : Nat} (h : d < 10) : isDigitC (Char.ofNat (48 + d)) = true := by
  interval_cases d <;> decide

theorem natDigits_all_digit (n : Nat) : ∀ c ∈ natDigits n, isDigitC c = true := by
  intro c hc
  simp only [natDigits, List.mem_map, List.mem_reverse] at hc
  obtain ⟨d, hd, rfl⟩ := hc
  exact isDigitC_ofNat (Nat.digits_lt_base (by norm_num) hd)

theorem pad6_all_digit (n : Nat) : ∀ c ∈ pad6 n, isDigitC c = true := by
  intro c hc
  simp only [pad6, List.mem_append, List.mem_replicate] at hc
  rcases hc with h | h
  · rw [h.2]; decide
  · exact natDigits_all_digit n c h

theorem pad6_ne_nil (n : Nat) : pad6 n ≠ [] := by
  have h : (pad6 n).length = (6 - (natDigits n).length) + (natDigits n).length := by
    simp [pad6]
  intro hnil
  rw [hnil] at h
  simp only [List.length_nil] at h
  omega

theorem foldl_digitVal_zeros (k : Nat) :
    List.foldl (fun a c => a * 10 + digitVal c) 0 (List.replicate k '0') = 0 := by
  induction k with
  | zero => rfl
  | succ m ih => simpa [List.replicate_succ, List.foldl_cons] using ih

theorem foldl_digitVal_natDigits (l : List Nat) (hl : ∀ d ∈ l, d < 10) (a : Nat) :
    List.foldl (fun acc c => acc * 10 + digitVal c) a
      (l.reverse.map (fun d => Char.ofNat (48 + d))) =
      a * 10 ^ l.length + Nat.ofDigits 10 l := by
  induction l generalizing a with
  | nil => simp [Nat.ofDigits]
  | cons d tl ih =>
    have hd : d < 10 := hl d (List.mem_cons_self d tl)
    have htl : ∀ x ∈ tl, x < 10 := fun x hx => hl x (List.mem_cons_of_mem d hx)
    have hofd : Nat.ofDigits 10 (d :: tl) = d + 10 * Nat.ofDigits 10 tl := by
      have := @Nat.ofDigits_cons 10 d tl
      exact_mod_cast this
    rw [List.reverse_cons, List.map_append, List.foldl_append, ih htl a]
    simp only [List.map_cons, List.map_nil, List.foldl_cons, List.foldl_nil,
      digitVal_ofNat hd, hofd, List.length_cons]
    ring

theorem digitsToNat_natDigits (n : Nat) : digitsToNat (natDigits n) = n := by
  have := foldl_digitVal_natDigits (Nat.digits 10 n) (fun d hd => Nat.digits_lt_base (by norm_num) hd) 0
  simpa [digitsToNat, natDigits, Nat.ofDigits_digits] using this

theorem digitsToNat_pad6 (n : Nat) : digitsToNat (pad6 n) = n := by
  have hz := foldl_digitVal_zeros (6 - (natDigits n).length)
  have := digitsToNat_natDigits n
  simp only [digitsToNat, pad6, List.foldl_append] at *
  rw [hz, this]

/-! ## Character-class facts needed for re-parsing -/

theorem isDigitC_toNat {c : Char} (h : isDigitC c = true) : 48 ≤ c.toNat ∧ c.toNat ≤ 57 := by
  simp only [isDigitC, Bool.and_eq_true, decide_eq_true_eq] at h
  exact ⟨h.1, h.2⟩

theorem digit_not_special {c : Char} (h : isDigitC c = true) :
    c ≠ ';' ∧ c ≠ '^' ∧ c ≠ '@' ∧ c ≠ '$' ∧ c ≠ '(' ∧ c ≠ ')' := by
  obtain ⟨h1, h2⟩ := isDigitC_toNat h
  refine ⟨?_, ?_, ?_, ?_, ?_, ?_⟩ <;> rintro rfl <;>
    first
      | exact absurd h1 (by decide)
      | exact absurd h2 (by decide)

theorem modChar_not_special {c : Char} (h : isModChar c = true) :
    c ≠ ';' ∧ c ≠ '^' ∧ c ≠ '@' ∧ c ≠ '$' ∧ c ≠ '(' ∧ c ≠ ')' := by
  simp only [isModChar, Bool.not_eq_true', Bool.or_eq_false_iff, decide_eq_false_iff_not] at h
  tauto

/-! ## takeWhile / dropWhile over concatenations -/

theorem takeWhile_all {p : Char → Bool} {xs : List Char} (h : ∀ c ∈ xs, p c = true) :
    xs.takeWhile p = xs :=
  List.takeWhile_eq_self_iff.mpr h

theorem dropWhile_all {p : Char → Bool} {xs : List Char} (h : ∀ c ∈ xs, p c = true) :
    xs.dropWhile p = [] :=
  List.dropWhile_eq_nil_iff.mpr h

theorem takeWhile_append_stop {p : Char → Bool} {xs : List Char} (h : ∀ c ∈ xs, p c = true)
    {y : Char} (hy : p y = false) (ys : List Char) :
    (xs ++ y :: ys).takeWhile p = xs := by
  induction xs with
  | nil => simp [List.takeWhile, hy]
  | cons x tl ih =>
    have hx : p x = true := h x (List.mem_cons_self x tl)
    simp only [List.cons_append, List.takeWhile_cons, hx, if_true]
    rw [ih (fun c hc => h c (List.mem_cons_of_mem x hc))]

theorem dropWhile_append_stop {p : Char → Bool} {xs : List Char} (h : ∀ c ∈ xs, p c = true)
    {y : Char} (hy : p y = false) (ys : List Char) :
    (xs ++ y :: ys).dropWhile p = y :: ys := by
  induction xs with
  | cons x tl ih =>
    have hx : p x = true := h x (List.mem_cons_self x tl)
    simp only [List.cons_append, List.dropWhile_cons, hx, if_true]
    exact ih (fun c hc => h c (List.mem_cons_of_mem x hc))
  | nil => simp [List.dropWhile, hy]

/-! ## Modifier runs: validity, soundness and round-trip -/

/-- Well-formed modifier list: each modifier is `@` followed by a nonempty
name of non-structural characters.  Every modifier list the parser produces
is of this shape, which is what makes re-encoding faithful. -/
def ValidMods (ms : List (List Char)) : Prop :=
  ∀ m ∈ ms, ∃ n, m = '@' :: n ∧ n ≠ [] ∧ ∀ c ∈ n, isModChar c = true

theorem validMods_nil : ValidMods [] := by intro m hm; cases hm

theorem validMods_append {ms1 ms2 : List (List Char)} (h1 : ValidMods ms1)
    (h2 : ValidMods ms2) : ValidMods (ms1 ++ ms2) := by
  intro m hm
  rcases List.mem_append.mp hm with h | h
  · exact h1 m h
  · exact h2 m h

theorem parseModRun_sound {l : List Char} {ms : List (List Char)}
    (h : parseModRun l = some ms) : ValidMods ms := by
  unfold parseModRun at h
  split at h
  · rename_i names heq
    split at h
    · rename_i hall
      simp only [Option.some.injEq] at h
      subst h
      intro m hm
      simp only [List.mem_map] at hm
      obtain ⟨n, hn, rfl⟩ := hm
      have := List.all_eq_true.mp hall n hn
      simp only [Bool.and_eq_true, Bool.not_eq_true'] at this
      refine ⟨n, rfl, ?_, fun c hc => List.all_eq_true.mp this.2 c hc⟩
      intro hnil
      rw [hnil] at this
      exact absurd this.1 (by decide)
    · exact absurd h (by simp)
  · exact absurd h (by simp)

theorem flattenMods_nil : flattenMods [] = [] := rfl

theorem flattenMods_cons (m : List Char) (ms : List (List Char)) :
    flattenMods (m :: ms) = m ++ flattenMods ms := rfl

theorem flattenMods_chars {ms : List (List Char)} (h : ValidMods ms) :
    ∀ c ∈ flattenMods ms, c = '@' ∨ isModChar c = true := by
  induction ms with
  | nil => intro c hc; cases hc
  | cons m tl ih =>
    intro c hc
    rw [flattenMods_cons] at hc
    rcases List.mem_append.mp hc with hcm | hct
    · obtain ⟨n, rfl, _, hn⟩ := h m (List.mem_cons_self m tl)
      rcases List.mem_cons.mp hcm with rfl | hcn
      · exact Or.inl rfl
      · exact Or.inr (hn c hcn)
    · exact ih (fun m' hm' => h m' (List.mem_cons_of_mem m hm')) c hct

theorem flattenMods_no_special {ms : List (List Char)} (h : ValidMods ms) :
    ∀ c ∈ flattenMods ms, c ≠ ';' ∧ c ≠ '^' ∧ c ≠ '$' ∧ c ≠ '(' ∧ c ≠ ')' := by
  intro c hc
  rcases flattenMods_chars h c hc with rfl | hmc
  · exact ⟨by decide, by decide, by decide, by decide, by decide⟩
  · obtain ⟨a, b, _, d, e, f⟩ := modChar_not_special hmc
    exact ⟨a, b, d, e, f⟩

theorem splitOnChar_at_flattenMods {ms : List (List Char)} (h : ValidMods ms)
    {n0 : List Char} (h0 : '@' ∉ n0) :
    splitOnChar '@' (n0 ++ flattenMods ms) = n0 :: ms.map List.tail := by
  induction ms generalizing n0 with
  | nil =>
    rw [flattenMods_nil, List.append_nil, splitOnChar_of_not_mem '@' n0 h0]
    rfl
  | cons m tl ih =>
    obtain ⟨n, rfl, _, hn⟩ := h m (List.mem_cons_self m tl)
    rw [flattenMods_cons]
    have hna : '@' ∉ n := fun hmem => by
      have := hn '@' hmem
      simp [isModChar] at this
    rw [show n0 ++ ('@' :: n ++ flattenMods tl) = n0 ++ '@' :: (n ++ flattenMods tl) from rfl,
      splitOnChar_append_sep '@' n0 _ h0,
      ih (fun m' hm' => h m' (List.mem_cons_of_mem _ hm')) hna]
    rfl

theorem parseModRun_flattenMods {ms : List (List Char)} (h : ValidMods ms) :
    parseModRun (flattenMods ms) = some ms := by
  have hsplit := splitOnChar_at_flattenMods h (show '@' ∉ ([] : List Char) by simp)
  rw [List.nil_append] at hsplit
  unfold parseModRun
  rw [hsplit]
  dsimp only
  have hall : (ms.map List.tail).all (fun n => !n.isEmpty && n.all isModChar) = true := by
    rw [List.all_eq_true]
    intro n hn
    simp only [List.mem_map] at hn
    obtain ⟨m, hm, rfl⟩ := hn
    obtain ⟨nm, rfl, hne, hmc⟩ := h m hm
    simp only [List.tail_cons, Bool.and_eq_true, Bool.not_eq_true']
    constructor
    · cases nm with
      | nil => exact absurd rfl hne
      | cons a b => simp [List.isEmpty]
    · exact List.all_eq_true.mpr hmc
  rw [if_pos hall]
  congr 1
  rw [List.map_map]
  conv_rhs => rw [show ms = ms.map id from (List.map_id ms).symm]
  apply List.map_congr_left
  intro m hm
  obtain ⟨n, rfl, _, _⟩ := h m hm
  rfl

/-! ## Re-parsing an encoded operand segment -/

theorem ne_dollar_of_flattenMods {ms : List (List Char)} (h : ValidMods ms) :
    ∀ c ∈ flattenMods ms, (decide (c ≠ '$')) = true := by
  intro c hc
  simp only [decide_eq_true_eq]
  exact (flattenMods_no_special h c hc).2.2.1

theorem takeWhile_digits_pad6 (off : Nat) {post : List (List Char)} (h : ValidMods post) :
    (pad6 off ++ flattenMods post).takeWhile isDigitC = pad6 off ∧
      (pad6 off ++ flattenMods post).dropWhile isDigitC = flattenMods post := by
  cases post with
  | nil =>
    rw [flattenMods_nil, List.append_nil]
    exact ⟨takeWhile_all (pad6_all_digit off), dropWhile_all (pad6_all_digit off)⟩
  | cons m tl =>
    obtain ⟨n, rfl, _, _⟩ := h m (List.mem_cons_self m tl)
    rw [flattenMods_cons]
    rw [show ('@' :: n) ++ flattenMods tl = '@' :: (n ++ flattenMods tl) from rfl]
    exact ⟨takeWhile_append_stop (pad6_all_digit off) (by decide) _,
      dropWhile_append_stop (pad6_all_digit off) (by decide) _⟩

theorem isEmpty_pad6 (off : Nat) : (pad6 off).isEmpty = false := by
  rcases h : pad6 off with _ | ⟨a, b⟩
  · exact absurd h (pad6_ne_nil off)
  · rfl

theorem parseSeg_operand_rt {pre post : List (List Char)} (hpre : ValidMods pre)
    (hpost : ValidMods post) (off : Nat) :
    parseSeg (flattenMods pre ++ '$' :: (pad6 off ++ flattenMods post)) =
      some (.operand pre off post) := by
  unfold parseSeg
  rw [dropWhile_append_stop (ne_dollar_of_flattenMods hpre) (by decide) _]
  simp only [parseSegDollar]
  rw [takeWhile_append_stop (ne_dollar_of_flattenMods hpre) (by decide) _]
  rw [(takeWhile_digits_pad6 off hpost).1, (takeWhile_digits_pad6 off hpost).2]
  rw [isEmpty_pad6 off, if_neg (by simp)]
  rw [parseModRun_flattenMods hpre, parseModRun_flattenMods hpost]
  rw [digitsToNat_pad6]

theorem parseSeg_modsOnly_rt {run : List (List Char)} (h : ValidMods run) :
    parseSeg (flattenMods run) = some (.modsOnly run) := by
  unfold parseSeg
  rw [dropWhile_all (ne_dollar_of_flattenMods h)]
  simp only [parseSegDollar]
  rw [parseModRun_flattenMods h]

/-! ## Re-parsing an encoded operand list -/

theorem caret_not_mem_seg {pre post : List (List Char)} (hpre : ValidMods pre)
    (hpost : ValidMods post) (off : Nat) :
    '^' ∉ flattenMods pre ++ '$' :: (pad6 off ++ flattenMods post) := by
  intro hmem
  rcases List.mem_append.mp hmem with h | h
  · exact (flattenMods_no_special hpre '^' h).2.1 rfl
  · rcases List.mem_cons.mp h with h | h
    · exact absurd h.symm (by decide)
    · rcases List.mem_append.mp h with h | h
      · exact (digit_not_special (pad6_all_digit off '^' h)).2.1 rfl
      · exact (flattenMods_no_special hpost '^' h).2.1 rfl

theorem parseBody_plain_rt {pre post : List (List Char)} (hpre : ValidMods pre)
    (hpost : ValidMods post) (off : Nat) :
    parseBody (flattenMods pre ++ '$' :: (pad6 off ++ flattenMods post)) =
      some ([(pre, off)], post, false) := by
  unfold parseBody
  rw [splitOnChar_of_not_mem '^' _ (caret_not_mem_seg hpre hpost off)]
  simp only [parseSegs]
  rw [parseSeg_operand_rt hpre hpost off]
  rfl

theorem parseBody_dangling_rt {pre post : List (List Char)} (hpre : ValidMods pre)
    (hpost : ValidMods post) (off : Nat) :
    parseBody ((flattenMods pre ++ '$' :: pad6 off) ++ '^' :: flattenMods post) =
      some ([(pre, off)], post, true) := by
  have hseg1 : '^' ∉ flattenMods pre ++ '$' :: pad6 off := by
    have := caret_not_mem_seg hpre validMods_nil off
    rwa [flattenMods_nil, List.append_nil] at this
  have hflat : '^' ∉ flattenMods post := fun hmem =>
    (flattenMods_no_special hpost '^' hmem).2.1 rfl
  have hseg : parseSeg (flattenMods pre ++ '$' :: pad6 off) =
      some (.operand pre off []) := by
    have := parseSeg_operand_rt hpre validMods_nil off
    rwa [flattenMods_nil, List.append_nil] at this
  unfold parseBody
  rw [splitOnChar_append_sep '^' _ _ hseg1, splitOnChar_of_not_mem '^' _ hflat]
  simp only [parseSegs]
  rw [hseg, parseSeg_modsOnly_rt hpost]
  rfl

/-! ## Soundness: everything the parser builds is well-formed -/

theorem parseSeg_operand_sound {seg : List Char} {pre : List (List Char)} {off : Nat}
    {post : List (List Char)} (h : parseSeg seg = some (.operand pre off post)) :
    ValidMods pre ∧ ValidMods post := by
  unfold parseSeg at h
  cases hdw : seg.dropWhile (· ≠ '$') with
  | nil =>
    rw [hdw] at h
    simp only [parseSegDollar] at h
    split at h
    · simp at h
    · simp at h
  | cons c r2 =>
    rw [hdw] at h
    simp only [parseSegDollar] at h
    split at h
    · simp at h
    · split at h
      · rename_i pms qms hpms hqms
        simp only [Option.some.injEq, Seg.operand.injEq] at h
        obtain ⟨rfl, -, rfl⟩ := h
        exact ⟨parseModRun_sound hpms, parseModRun_sound hqms⟩
      · simp at h

theorem parseSeg_modsOnly_sound {seg : List Char} {run : List (List Char)}
    (h : parseSeg seg = some (.modsOnly run)) : ValidMods run := by
  unfold parseSeg at h
  cases hdw : seg.dropWhile (· ≠ '$') with
  | nil =>
    rw [hdw] at h
    simp only [parseSegDollar] at h
    split at h
    · rename_i hrun
      simp only [Option.some.injEq, Seg.modsOnly.injEq] at h
      subst h
      exact parseModRun_sound hrun
    · simp at h
  | cons c r2 =>
    rw [hdw] at h
    simp only [parseSegDollar] at h
    split at h
    · simp at h
    · split at h
      · simp at h
      · simp at h

theorem parseSegs_sound {segs : List (List Char)} :
    ∀ {ops trailing dangling}, parseSegs segs = some (ops, trailing, dangling) →
      (∀ op ∈ ops, ValidMods op.1) ∧ ValidMods trailing := by
  induction segs with
  | nil => intro ops trailing dangling h; simp [parseSegs] at h
  | cons s rest ih =>
    intro ops trailing dangling h
    cases rest with
    | nil =>
      simp only [parseSegs] at h
      split at h
      · rename_i pre off post hseg
        simp only [Option.some.injEq, Prod.mk.injEq] at h
        obtain ⟨rfl, rfl, rfl⟩ := h
        obtain ⟨hpre, hpost⟩ := parseSeg_operand_sound hseg
        refine ⟨?_, hpost⟩
        intro op hop
        rcases List.mem_singleton.mp hop with rfl
        exact hpre
      · rename_i run hseg
        simp only [Option.some.injEq, Prod.mk.injEq] at h
        obtain ⟨rfl, rfl, rfl⟩ := h
        exact ⟨fun op hop => absurd hop (List.not_mem_nil op), parseSeg_modsOnly_sound hseg⟩
      · simp at h
    | cons s2 rest2 =>
      simp only [parseSegs] at h
      split at h
      · rename_i pre off post ops0 trailing0 dangling0 hseg hrest
        split at h
        · simp only [Option.some.injEq, Prod.mk.injEq] at h
          obtain ⟨rfl, rfl, rfl⟩ := h
          obtain ⟨hpre, -⟩ := parseSeg_operand_sound hseg
          obtain ⟨hops, htr⟩ := ih hrest
          refine ⟨?_, htr⟩
          intro op hop
          rcases List.mem_cons.mp hop with rfl | hop
          · exact hpre
          · exact hops op hop
        · simp at h
      · simp at h

theorem parseBody_sound {body : List Char} {ops : List (List (List Char) × Nat)}
    {trailing : List (List Char)} {dangling : Bool}
    (h : parseBody body = some (ops, trailing, dangling)) :
    (∀ op ∈ ops, ValidMods op.1) ∧ ValidMods trailing ∧ ops ≠ [] := by
  unfold parseBody at h
  split at h
  · rename_i ops0 trailing0 dangling0 hsegs
    split at h
    · simp at h
    · rename_i hne
      simp only [Option.some.injEq, Prod.mk.injEq] at h
      obtain ⟨rfl, rfl, rfl⟩ := h
      obtain ⟨hops, htr⟩ := parseSegs_sound hsegs
      refine ⟨hops, htr, ?_⟩
      intro hnil
      rw [hnil] at hne
      exact hne rfl
  · simp at h

/-! ## The parse invariant -/

/-- Per-reference well-formedness: a parsed reference has page number `0`
(the scene walk assigns pages later), a hash the lookup agrees with,
well-formed modifiers, and a message-start reference (glue without
modifiers) never carries a forced newline. -/
def LocalOK (lookup : Nat → Option (List Char)) (tc : TextCommand) : Prop :=
  tc.page_number = 0 ∧ lookup tc.offset = some tc.jp_hash ∧ ValidMods tc.modifiers ∧
    (tc.is_glued = true ∧ tc.modifiers = [] → tc.has_forced_newline = false)

/-- What must hold of the reference preceding a glued message-start
reference: it was the last operand of a text-block command that did not end
in a dangling separator. -/
def PrevOK (p : TextCommand) : Prop :=
  ¬(p.is_glued = true ∧ p.modifiers = []) ∧ p.has_forced_newline = false

/-- The chained parse invariant: every reference is locally well-formed and
every glued modifier-free reference follows a `PrevOK` reference. -/
def InvChain (lookup : Nat → Option (List Char)) :
    Option TextCommand → List TextCommand → Prop
  | _, [] => True
  | prev, tc :: rest =>
    LocalOK lookup tc ∧
      (tc.is_glued = true ∧ tc.modifiers = [] → ∃ p, prev = some p ∧ PrevOK p) ∧
      InvChain lookup (some tc) rest

/-- Last element of a reference list, falling back to the previous one. -/
def lastOpt (prev : Option TextCommand) (l : List TextCommand) : Option TextCommand :=
  match l.getLast? with
  | some x => some x
  | none => prev

theorem lastOpt_nil (prev : Option TextCommand) : lastOpt prev [] = prev := rfl

theorem lastOpt_cons (prev : Option TextCommand) (tc : TextCommand) (l : List TextCommand) :
    lastOpt prev (tc :: l) = lastOpt (some tc) l := by
  cases l with
  | nil => rfl
  | cons x xs =>
    have h : ∃ y, (x :: xs).getLast? = some y := by
      induction xs generalizing x with
      | nil => exact ⟨x, rfl⟩
      | cons z zs ih => rw [List.getLast?_cons_cons]; exact ih z
    obtain ⟨y, hy⟩ := h
    simp [lastOpt, List.getLast?_cons_cons, hy]

theorem InvChain_append {lookup : Nat → Option (List Char)} {ys : List TextCommand} :
    ∀ {xs : List TextCommand} {prev : Option TextCommand},
      InvChain lookup prev xs → InvChain lookup (lastOpt prev xs) ys →
        InvChain lookup prev (xs ++ ys) := by
  intro xs
  induction xs with
  | nil => intro prev _ hy; exact hy
  | cons tc tl ih =>
    intro prev hx hy
    rw [lastOpt_cons] at hy
    obtain ⟨h1, h2, h3⟩ := hx
    exact ⟨h1, h2, ih h3 hy⟩

theorem InvChain_of_all {lookup : Nat → Option (List Char)} {tcs : List TextCommand}
    (h : ∀ tc ∈ tcs, LocalOK lookup tc ∧ ¬(tc.is_glued = true ∧ tc.modifiers = [])) :
    ∀ prev, InvChain lookup prev tcs := by
  induction tcs with
  | nil => intro prev; trivial
  | cons tc tl ih =>
    intro prev
    obtain ⟨hL, hg⟩ := h tc (List.mem_cons_self tc tl)
    exact ⟨hL, fun hc => absurd hc hg,
      ih (fun x hx => h x (List.mem_cons_of_mem tc hx)) (some tc)⟩

theorem InvChain_localOK {lookup : Nat → Option (List Char)} :
    ∀ {tcs : List TextCommand} {prev : Option TextCommand},
      InvChain lookup prev tcs → ∀ tc ∈ tcs, LocalOK lookup tc := by
  intro tcs
  induction tcs with
  | nil => intro prev _ tc htc; cases htc
  | cons x tl ih =>
    intro prev h tc htc
    obtain ⟨h1, -, h3⟩ := h
    rcases List.mem_cons.mp htc with rfl | htc
    · exact h1
    · exact ih h3 tc htc

/-- How the glue state a command leaves behind relates to the references
emitted so far. -/
def StOK (st : PState) (prev : Option TextCommand) : Prop :=
  st.prevTextBlock = true ∧ st.prevDangling = false → ∃ p, prev = some p ∧ PrevOK p

/-! ## What `buildOps` produces -/

theorem buildOps_all {lookup : Nat → Option (List Char)} {dangling : Bool}
    {trailing : List (List Char)} (htr : ValidMods trailing) :
    ∀ {ops : List (List (List Char) × Nat)} {tcs : List TextCommand},
      buildOps lookup dangling trailing ops = some tcs →
      (∀ op ∈ ops, ValidMods op.1) →
      ∀ tc ∈ tcs, LocalOK lookup tc ∧ ¬(tc.is_glued = true ∧ tc.modifiers = []) := by
  intro ops
  induction ops with
  | nil =>
    intro tcs h _
    simp only [buildOps, Option.some.injEq] at h
    subst h
    intro tc htc
    cases htc
  | cons op rest ih =>
    intro tcs h hops
    obtain ⟨pre, off⟩ := op
    have hpre : ValidMods pre := hops (pre, off) (List.mem_cons_self _ rest)
    have hrest : ∀ op ∈ rest, ValidMods op.1 :=
      fun x hx => hops x (List.mem_cons_of_mem _ hx)
    have key : ∀ (hh : List Char) (fn : Bool),
        lookup off = some hh →
        LocalOK lookup ⟨off, hh, 0, pre ++ trailing, fn, !pre.isEmpty⟩ ∧
          ¬((!pre.isEmpty) = true ∧ pre ++ trailing = []) := by
      intro hh fn hl
      have hne : ¬((!pre.isEmpty) = true ∧ pre ++ trailing = []) := by
        rintro ⟨hg, hm⟩
        rcases List.append_eq_nil.mp hm with ⟨rfl, -⟩
        simp at hg
      exact ⟨⟨rfl, hl, validMods_append hpre htr, fun hc => absurd hc hne⟩, hne⟩
    cases rest with
    | nil =>
      simp only [buildOps] at h
      split at h
      · rename_i hh hl
        simp only [Option.some.injEq] at h
        subst h
        intro tc htc
        rcases List.mem_singleton.mp htc with rfl
        exact key hh dangling hl
      · simp at h
    | cons op2 rest2 =>
      simp only [buildOps] at h
      split at h
      · rename_i hh tcs0 hl hbo
        simp only [Option.some.injEq] at h
        subst h
        intro tc htc
        rcases List.mem_cons.mp htc with rfl | htc
        · exact key hh true hl
        · exact ih hbo hrest tc htc
      · simp at h

theorem buildOps_ne_nil {lookup : Nat → Option (List Char)} {dangling : Bool}
    {trailing : List (List Char)} {ops : List (List (List Char) × Nat)}
    {tcs : List TextCommand} (h : buildOps lookup dangling trailing ops = some tcs)
    (hne : ops ≠ []) : tcs ≠ [] := by
  cases ops with
  | nil => exact absurd rfl hne
  | cons op rest =>
    obtain ⟨pre, off⟩ := op
    cases rest with
    | nil =>
      simp only [buildOps] at h
      split at h
      · simp only [Option.some.injEq] at h
        subst h
        simp
      · simp at h
    | cons op2 rest2 =>
      simp only [buildOps] at h
      split at h
      · simp only [Option.some.injEq] at h
        subst h
        simp
      · simp at h

theorem buildOps_last_fn {lookup : Nat → Option (List Char)} {dangling : Bool}
    {trailing : List (List Char)} :
    ∀ {ops : List (List (List Char) × Nat)} {tcs : List TextCommand},
      buildOps lookup dangling trailing ops = some tcs →
      ∀ {tcLast : TextCommand}, tcs.getLast? = some tcLast →
        tcLast.has_forced_newline = dangling := by
  intro ops
  induction ops with
  | nil =>
    intro tcs h tcLast hlast
    simp only [buildOps, Option.some.injEq] at h
    subst h
    simp at hlast
  | cons op rest ih =>
    intro tcs h tcLast hlast
    obtain ⟨pre, off⟩ := op
    cases rest with
    | nil =>
      simp only [buildOps] at h
      split at h
      · simp only [Option.some.injEq] at h
        subst h
        simp only [List.getLast?_singleton, Option.some.injEq] at hlast
        subst hlast
        rfl
      · simp at h
    | cons op2 rest2 =>
      simp only [buildOps] at h
      split at h
      · rename_i hh tcs0 hl hbo
        simp only [Option.some.injEq] at h
        subst h
        have htcs0 : tcs0 ≠ [] := buildOps_ne_nil hbo (by simp)
        cases hx : tcs0 with
        | nil => exact absurd hx htcs0
        | cons y ys =>
          rw [hx] at hlast
          rw [List.getLast?_cons_cons] at hlast
          exact ih hbo (by rw [hx]; exact hlast)
      · simp at h

/-! ## The parser maintains the invariant -/

theorem mem_of_getLast?_eq {α : Type} {l : List α} {y : α} (h : l.getLast? = some y) :
    y ∈ l := by
  cases l with
  | nil => simp at h
  | cons a as =>
    rw [List.getLast?_eq_getLast_of_ne_nil (by simp)] at h
    simp only [Option.some.injEq] at h
    subst h
    exact List.getLast_mem _

theorem parseMsadBody_inv {lookup : Nat → Option (List Char)} {st : PState} {r2 : List Char}
    {tcs : List TextCommand} {st' : PState}
    (h : parseMsadBody lookup st r2 = some (tcs, st')) :
    ∃ off hh, lookup off = some hh ∧
      tcs = [⟨off, hh, 0, [], false, st.prevTextBlock && !st.prevDangling⟩] ∧
      st' = ⟨false, false⟩ := by
  unfold parseMsadBody at h
  dsimp only at h
  split at h
  · split at h
    · simp at h
    · split at h
      · rename_i hh hl
        simp only [Option.some.injEq, Prod.mk.injEq] at h
        obtain ⟨rfl, rfl⟩ := h
        exact ⟨_, hh, hl, rfl, rfl⟩
      · simp at h
  · simp at h

theorem parseZmBody_inv {lookup : Nat → Option (List Char)} {r1 : List Char}
    {tcs : List TextCommand} {st' : PState}
    (h : parseZmBody lookup r1 = some (tcs, st')) :
    tcs ≠ [] ∧ (∀ tc ∈ tcs, LocalOK lookup tc ∧ ¬(tc.is_glued = true ∧ tc.modifiers = [])) ∧
      ∃ dangling, st' = ⟨true, dangling⟩ ∧
        (∀ {tcLast}, tcs.getLast? = some tcLast → tcLast.has_forced_newline = dangling) := by
  unfold parseZmBody at h
  split at h
  · split at h
    · rename_i ops trailing dangling hpb
      split at h
      · rename_i tcs0 hbo
        simp only [Option.some.injEq, Prod.mk.injEq] at h
        obtain ⟨rfl, rfl⟩ := h
        obtain ⟨hops, htr, hne⟩ := parseBody_sound hpb
        exact ⟨buildOps_ne_nil hbo hne, buildOps_all htr hbo hops, dangling, rfl,
          fun hlast => buildOps_last_fn hbo hlast⟩
      · simp at h
    · simp at h
  · simp at h

theorem parseZmTail_inv {lookup : Nat → Option (List Char)} {tl : List Char}
    {tcs : List TextCommand} {st' : PState}
    (h : parseZmTail lookup tl = some (tcs, st')) :
    tcs ≠ [] ∧ (∀ tc ∈ tcs, LocalOK lookup tc ∧ ¬(tc.is_glued = true ∧ tc.modifiers = [])) ∧
      ∃ dangling, st' = ⟨true, dangling⟩ ∧
        (∀ {tcLast}, tcs.getLast? = some tcLast → tcLast.has_forced_newline = dangling) := by
  unfold parseZmTail at h
  split at h
  · exact parseZmBody_inv h
  · simp at h

theorem parseCommand_inv {lookup : Nat → Option (List Char)} {cmd : List Char} {st : PState}
    {tcs : List TextCommand} {st' : PState}
    (h : parseCommand lookup cmd st = some (tcs, st'))
    {prev : Option TextCommand} (hst : StOK st prev) :
    InvChain lookup prev tcs ∧ StOK st' (lastOpt prev tcs) := by
  have hskip : ∀ (hs : tcs = [] ∧ st' = (⟨false, false⟩ : PState)),
      InvChain lookup prev tcs ∧ StOK st' (lastOpt prev tcs) := by
    rintro ⟨rfl, rfl⟩
    exact ⟨trivial, fun hc => absurd hc.1 (by simp)⟩
  have hzm : ∀ {tl : List Char}, parseZmTail lookup tl = some (tcs, st') →
      InvChain lookup prev tcs ∧ StOK st' (lastOpt prev tcs) := by
    intro tl hz
    obtain ⟨hne, hall, dangling, rfl, hlast⟩ := parseZmTail_inv hz
    refine ⟨InvChain_of_all hall prev, ?_⟩
    rintro ⟨-, hd⟩
    simp only at hd
    subst hd
    cases hx : tcs.getLast? with
    | none =>
      rw [List.getLast?_eq_none_iff] at hx
      exact absurd hx hne
    | some y =>
      refine ⟨y, by simp [lastOpt, hx], (hall y (mem_of_getLast?_eq hx)).2, hlast hx⟩
  have hmsad : ∀ {r2 : List Char}, parseMsadBody lookup st r2 = some (tcs, st') →
      InvChain lookup prev tcs ∧ StOK st' (lastOpt prev tcs) := by
    intro r2 hm
    obtain ⟨off, hh, hl, rfl, rfl⟩ := parseMsadBody_inv hm
    refine ⟨⟨⟨rfl, hl, validMods_nil, fun _ => rfl⟩, ?_, trivial⟩,
      fun hc => absurd hc.1 (by simp)⟩
    rintro ⟨hg, -⟩
    simp only [Bool.and_eq_true, Bool.not_eq_true'] at hg
    exact hst hg
  unfold parseCommand at h
  split at h
  · split at h
    · exact hzm h
    · split at h
      · split at h
        · split at h
          · exact hmsad h
          · exact hskip (by simpa using h.symm)
        · exact hskip (by simpa using h.symm)
      · exact hskip (by simpa using h.symm)
  · exact hskip (by simpa using h.symm)

theorem parseCmdList_inv {lookup : Nat → Option (List Char)} :
    ∀ {parts : List (List Char)} {st : PState} {out : List TextCommand}
      {prev : Option TextCommand},
      parseCmdList lookup parts st = some out → StOK st prev →
        InvChain lookup prev out := by
  intro parts
  induction parts with
  | nil =>
    intro st out prev h _
    simp only [parseCmdList, Option.some.injEq] at h
    subst h
    trivial
  | cons c cs ih =>
    intro st out prev h hst
    simp only [parseCmdList] at h
    split at h
    · rename_i tcs st' hc
      split at h
      · rename_i rest hrest
        simp only [Option.some.injEq] at h
        subst h
        obtain ⟨hinv, hst'⟩ := parseCommand_inv hc hst
        exact InvChain_append hinv (ih hrest hst')
      · simp at h
    · simp at h

theorem parse_script_cmds_inv {lookup : Nat → Option (List Char)} {s : List Char}
    {cmds : List TextCommand} (h : parse_script_cmds lookup s = some cmds) :
    InvChain lookup none cmds := by
  unfold parse_script_cmds at h
  dsimp only at h
  split at h
  · exact parseCmdList_inv h (fun hc => absurd hc.1 (by simp))
  · simp at h

/-! ## Re-parsing one re-encoded command -/

theorem parseCommand_msad_shape (lookup : Nat → Option (List Char)) (st : PState)
    (r2 : List Char) :
    parseCommand lookup ('_' :: 'M' :: 'S' :: 'A' :: 'D' :: '(' :: '$' :: r2) st =
      parseMsadBody lookup st r2 := rfl

theorem parseCommand_zm_shape (lookup : Nat → Option (List Char)) (st : PState)
    (tl : List Char) :
    parseCommand lookup ('_' :: 'Z' :: 'M' :: tl) st = parseZmTail lookup tl := rfl

theorem parseZmTail_paren (lookup : Nat → Option (List Char)) (r1 : List Char) :
    parseZmTail lookup ('(' :: r1) = parseZmBody lookup r1 := rfl

theorem parseMsadBody_pad6 {lookup : Nat → Option (List Char)} (st : PState) {off : Nat}
    {hh : List Char} (hl : lookup off = some hh) :
    parseMsadBody lookup st (pad6 off ++ [')']) =
      some ([⟨off, hh, 0, [], false, st.prevTextBlock && !st.prevDangling⟩],
        ⟨false, false⟩) := by
  unfold parseMsadBody
  rw [takeWhile_append_stop (pad6_all_digit off) (by decide) _,
    dropWhile_append_stop (pad6_all_digit off) (by decide) _]
  dsimp only
  rw [if_pos rfl, isEmpty_pad6 off]
  rw [if_neg (by simp), digitsToNat_pad6, hl]

theorem parseZmBody_concat {lookup : Nat → Option (List Char)} {bodyCore : List Char}
    {pre : List (List Char)} {off : Nat} {trailing : List (List Char)} {dangling : Bool}
    (hb : parseBody bodyCore = some ([(pre, off)], trailing, dangling))
    {hh : List Char} (hl : lookup off = some hh) :
    parseZmBody lookup (bodyCore ++ [')']) =
      some ([⟨off, hh, 0, pre ++ trailing, dangling, !pre.isEmpty⟩], ⟨true, dangling⟩) := by
  unfold parseZmBody
  rw [List.getLast?_concat, if_pos rfl, List.dropLast_concat, hb]
  dsimp only
  have hbo : buildOps lookup dangling trailing [(pre, off)] =
      some [⟨off, hh, 0, pre ++ trailing, dangling, !pre.isEmpty⟩] := by
    simp only [buildOps]
    rw [hl]
  rw [hbo]

/-- State the parser is left in after one re-encoded command. -/
def stAfter (tc : TextCommand) : PState :=
  if tc.is_glued && tc.modifiers.isEmpty then ⟨false, false⟩
  else ⟨true, tc.has_forced_newline⟩

theorem parseCommand_encodeCmd {lookup : Nat → Option (List Char)} {tc : TextCommand}
    (hL : LocalOK lookup tc) (st : PState)
    (hG : tc.is_glued = true ∧ tc.modifiers = [] →
      st.prevTextBlock = true ∧ st.prevDangling = false) :
    parseCommand lookup (encodeCmd tc) st = some ([tc], stAfter tc) := by
  obtain ⟨off, jh, pg, mods, fn, gl⟩ := tc
  obtain ⟨hpage, hhash, hmods, hglue⟩ := hL
  simp only at hpage hhash hmods hglue hG
  subst hpage
  by_cases hge : gl = true ∧ mods = []
  · obtain ⟨rfl, rfl⟩ := hge
    have hfn : fn = false := hglue ⟨rfl, rfl⟩
    subst hfn
    obtain ⟨hpt, hpd⟩ := hG ⟨rfl, rfl⟩
    have henc : encodeCmd ⟨off, jh, 0, [], false, true⟩ =
        '_' :: 'M' :: 'S' :: 'A' :: 'D' :: '(' :: '$' :: (pad6 off ++ [')']) := by
      simp [encodeCmd]
    rw [henc, parseCommand_msad_shape, parseMsadBody_pad6 st hhash, hpt, hpd]
    rfl
  · have hmodsE : flattenMods [] = ([] : List Char) := rfl
    by_cases hgl : gl = true
    · have hmne : mods ≠ [] := fun hc => hge ⟨hgl, hc⟩
      subst hgl
      have hie : mods.isEmpty = false := by
        cases mods with
        | nil => exact absurd rfl hmne
        | cons a b => rfl
      by_cases hfn : fn = true
      · subst hfn
        have henc : encodeCmd ⟨off, jh, 0, mods, true, true⟩ =
            '_' :: 'Z' :: 'M' :: '(' ::
              (((flattenMods mods ++ '$' :: pad6 off) ++ '^' :: flattenMods []) ++ [')']) := by
          simp [encodeCmd, hie, flattenMods_nil]
        rw [henc, parseCommand_zm_shape, parseZmTail_paren,
          parseZmBody_concat (parseBody_dangling_rt hmods validMods_nil off) hhash]
        rw [List.append_nil]
        have : (!mods.isEmpty) = true := by rw [hie]; rfl
        rw [this]
        simp [stAfter, hie]
      · have hfn' : fn = false := by
          cases fn
          · rfl
          · exact absurd rfl hfn
        subst hfn'
        have henc : encodeCmd ⟨off, jh, 0, mods, false, true⟩ =
            '_' :: 'Z' :: 'M' :: '(' ::
              ((flattenMods mods ++ '$' :: (pad6 off ++ flattenMods [])) ++ [')']) := by
          simp [encodeCmd, hie, flattenMods_nil]
        rw [henc, parseCommand_zm_shape, parseZmTail_paren,
          parseZmBody_concat (parseBody_plain_rt hmods validMods_nil off) hhash]
        rw [List.append_nil]
        have : (!mods.isEmpty) = true := by rw [hie]; rfl
        rw [this]
        simp [stAfter, hie]
    · have hgl' : gl = false := by
        cases gl
        · rfl
        · exact absurd rfl hgl
      subst hgl'
      by_cases hfn : fn = true
      · subst hfn
        have henc : encodeCmd ⟨off, jh, 0, mods, true, false⟩ =
            '_' :: 'Z' :: 'M' :: '(' ::
              (((flattenMods [] ++ '$' :: pad6 off) ++ '^' :: flattenMods mods) ++ [')']) := by
          simp [encodeCmd, flattenMods_nil]
        rw [henc, parseCommand_zm_shape, parseZmTail_paren,
          parseZmBody_concat (parseBody_dangling_rt validMods_nil hmods off) hhash]
        rw [List.nil_append]
        simp [stAfter]
      · have hfn' : fn = false := by
          cases fn
          · rfl
          · exact absurd rfl hfn
        subst hfn'
        have henc : encodeCmd ⟨off, jh, 0, mods, false, false⟩ =
            '_' :: 'Z' :: 'M' :: '(' ::
              ((flattenMods [] ++ '$' :: (pad6 off ++ flattenMods mods)) ++ [')']) := by
          simp [encodeCmd, flattenMods_nil]
        rw [henc, parseCommand_zm_shape, parseZmTail_paren,
          parseZmBody_concat (parseBody_plain_rt validMods_nil hmods off) hhash]
        rw [List.nil_append]
        simp [stAfter]

/-! ## Re-parsing the whole re-encoded stream -/

/-- What the glue state must provide before re-parsing a reference list:
whenever the previous reference could legitimately glue a message-start
command, the state says so. -/
def StMatch (st : PState) (prev : Option TextCommand) : Prop :=
  (∃ p, prev = some p ∧ PrevOK p) → st.prevTextBlock = true ∧ st.prevDangling = false

theorem parseCmdList_encode {lookup : Nat → Option (List Char)} :
    ∀ {cmds : List TextCommand} {prev : Option TextCommand},
      InvChain lookup prev cmds → ∀ {st : PState}, StMatch st prev →
        parseCmdList lookup (cmds.map (fun tc => encodeCmd tc)) st = some cmds := by
  intro cmds
  induction cmds with
  | nil => intro prev _ st _; rfl
  | cons tc rest ih =>
    intro prev hinv st hm
    obtain ⟨hL, hchain, hrest⟩ := hinv
    have hG : tc.is_glued = true ∧ tc.modifiers = [] →
        st.prevTextBlock = true ∧ st.prevDangling = false :=
      fun hc => hm (hchain hc)
    have hm' : StMatch (stAfter tc) (some tc) := by
      rintro ⟨p, hp, hpok⟩
      obtain rfl : tc = p := by injection hp
      obtain ⟨hne, hfn⟩ := hpok
      have hcond : (tc.is_glued && tc.modifiers.isEmpty) = false := by
        cases hgl : tc.is_glued
        · rfl
        · cases hmm : tc.modifiers with
          | nil => exact absurd ⟨hgl, hmm⟩ hne
          | cons a b => rfl
      simp [stAfter, hcond, hfn]
    simp only [List.map_cons, parseCmdList]
    rw [parseCommand_encodeCmd hL st hG]
    dsimp only
    rw [ih hrest hm']
    rfl

theorem semi_not_mem_encodeCmd {tc : TextCommand} (h : ValidMods tc.modifiers) :
    ';' ∉ encodeCmd tc := by
  intro hmem
  have hpad : ';' ∉ pad6 tc.offset := fun hp =>
    (digit_not_special (pad6_all_digit tc.offset ';' hp)).1 rfl
  have hflat : ';' ∉ flattenMods tc.modifiers := fun hf =>
    (flattenMods_no_special h ';' hf).1 rfl
  unfold encodeCmd at hmem
  repeat' split at hmem
  all_goals simp only [List.mem_cons, List.mem_append, List.mem_singleton] at hmem
  all_goals casesm* _ ∨ _
  all_goals simp_all

theorem splitOnChar_reencode {cmds : List TextCommand}
    (h : ∀ tc ∈ cmds, ValidMods tc.modifiers) :
    splitOnChar ';' (reencode_script cmds) =
      cmds.map (fun tc => encodeCmd tc) ++ [[]] := by
  induction cmds with
  | nil => rfl
  | cons tc rest ih =>
    have hsemi : ';' ∉ encodeCmd tc :=
      semi_not_mem_encodeCmd (h tc (List.mem_cons_self tc rest))
    have : reencode_script (tc :: rest) = encodeCmd tc ++ ';' :: reencode_script rest := rfl
    rw [this, splitOnChar_append_sep ';' _ _ hsemi,
      ih (fun x hx => h x (List.mem_cons_of_mem tc hx))]
    rfl

/-- C1 (round-trip): for every scene byte stream the parser accepts,
re-encoding the parsed reference sequence (the original text payload lives
in the shared string table, which the re-encoder substitutes separately) and
re-parsing the result reproduces exactly the same reference sequence — the
same offsets, modifiers, glue flags, forced-newline flags and command
boundaries. -/
theorem reencode_reparse_roundtrip {lookup : Nat → Option (List Char)} {s : List Char}
    {cmds : List TextCommand} (h : parse_script_cmds lookup s = some cmds) :
    parse_script_cmds lookup (reencode_script cmds) = some cmds := by
  have hinv := parse_script_cmds_inv h
  have hmods : ∀ tc ∈ cmds, ValidMods tc.modifiers :=
    fun tc htc => (InvChain_localOK hinv tc htc).2.2.1
  unfold parse_script_cmds
  dsimp only
  rw [splitOnChar_reencode hmods, List.getLast?_concat, if_pos rfl, List.dropLast_concat]
  refine parseCmdList_encode hinv (fun hc => ?_)
  obtain ⟨p, hp, -⟩ := hc
  cases hp

/-- C1 witness: the round-trip theorem applied to a concrete accepted scene
stream (the dangling-glue stream of the unit tests). -/
theorem reencode_reparse_roundtrip_witness :
    parse_script_cmds testLookup "_ZMbc419($043897^@n);_MSAD($014370);".data =
      some [⟨43897, "a content hash".data, 0, ["@n".data], true, false⟩,
        ⟨14370, "a content hash".data, 0, [], false, false⟩] ∧
    parse_script_cmds testLookup
      (reencode_script [⟨43897, "a content hash".data, 0, ["@n".data], true, false⟩,
        ⟨14370, "a content hash".data, 0, [], false, false⟩]) =
      some [⟨43897, "a content hash".data, 0, ["@n".data], true, false⟩,
        ⟨14370, "a content hash".data, 0, [], false, false⟩] :=
  ⟨by rfl, @reencode_reparse_roundtrip testLookup
    "_ZMbc419($043897^@n);_MSAD($014370);".data _ (by rfl)⟩

/-! ## Translation store (modelled)

Modelled from the spec: class `TranslationDb` of `luna.translation_db` is
absent from the source tree.  The store keeps, per scene, the parsed
`TextCommand` list, a hash-keyed translation map and an offset-keyed
override map (section 4.2).  Maps are embedded as association lists looked
up by key equality, and the content hash of a line is modelled as the
source text itself (a digest is injective on the repository's use of it, so
keying by the text is the same keying). -/

/-- Association-list lookup by decidable key equality. -/
def alookup {α β : Type} [DecidableEq α] (k : α) : List (α × β) → Option β
  | [] => none
  | (k', v) :: rest => if k' = k then some v else alookup k rest

/-- One translation entry, mirroring `TranslationDb.TLLine`. -/
structure TLLine where
  jp_text : List Char
  en_text : Option (List Char)
  comment : Option (List Char)
deriving DecidableEq, Repr

/-- Content hash of a line (modelled as the source text, see above). -/
def TLLine.content_hash (l : TLLine) : List Char := l.jp_text

/-- The translation store. -/
structure TranslationDb where
  scene_map : List (String × List TextCommand)
  line_by_hash : List (List Char × TLLine)
  overrides_by_offset : List (Nat × (List Char × Option (List Char)))
deriving DecidableEq, Repr

/-- Shared translation entry for a hash (an untranslated default when the
hash is unknown, which the spec calls a valid steady state). -/
def tl_line_with_hash (db : TranslationDb) (h : List Char) : TLLine :=
  (alookup h db.line_by_hash).getD ⟨[], none, none⟩

/-- Effective translation of one reference: the offset override wins,
otherwise the hash-keyed translation, otherwise empty (untranslated). -/
def resolveText (db : TranslationDb) (tc : TextCommand) : List Char :=
  match alookup tc.offset db.overrides_by_offset with
  | some (t, _) => t
  | none =>
    match (tl_line_with_hash db tc.jp_hash).en_text with
    | some t => t
    | none => []

/-! ## The reflow engine (modelled)

Modelled from the spec: `TranslationDb.generate_linebroken_text_map` is
absent from the source tree.  Following section 4.3: maximal glue chains are
wrapped as one virtual buffer by a greedy word-wrap at the fixed display
width; each break replaces the whitespace character before the overflowing
word; a break landing strictly inside a reference's span breaks that
reference in place, a break landing exactly on a span boundary is appended
to the earlier reference and the consumed whitespace is removed from the
head of the later one.  The width 55 is fixed by the repository's unit
tests. -/

/-- The game text box width, in characters. -/
def CHARS_PER_LINE : Nat := 55

/-- Maximal glue chains of a scene: a new chain starts at every reference
that is not glued to its predecessor. -/
def splitChains : List TextCommand → List (List TextCommand)
  | [] => []
  | c :: rest =>
    match splitChains rest with
    | [] => [[c]]
    | chain :: chains =>
      match chain with
      | d :: _ => if d.is_glued then (c :: chain) :: chains else [c] :: chain :: chains
      | [] => [c] :: chains

/-- The words of a buffer as `(start, length)` pairs (`cur` carries the word
being scanned). -/
def wordsGo : List Char → Nat → Option (Nat × Nat) → List (Nat × Nat)
  | [], _, cur =>
    match cur with
    | some w => [w]
    | none => []
  | c :: cs, i, cur =>
    if c = ' ' then
      match cur with
      | some w => w :: wordsGo cs (i + 1) none
      | none => wordsGo cs (i + 1) none
    else
      match cur with
      | some (st, len) => wordsGo cs (i + 1) (some (st, len + 1))
      | none => wordsGo cs (i + 1) (some (i, 1))

/-- Greedy accumulation: emit a break (the position of the space before the
word) whenever adding the next word would overflow the width. -/
def breaksGo (width : Nat) : List (Nat × Nat) → Nat → List Nat
  | [], _ => []
  | (s, l) :: rest, cur =>
    if width < cur + 1 + l then (s - 1) :: breaksGo width rest l
    else breaksGo width rest (cur + 1 + l)

/-- Break positions of a greedy word-wrap of the buffer. -/
def breaks (width : Nat) (ws : List (Nat × Nat)) : List Nat :=
  match ws with
  | [] => []
  | (_, l0) :: rest => breaksGo width rest l0

/-- Replace the characters at the given indices by line breaks. -/
def replaceGo : List Char → Nat → List Nat → List Char
  | [], _, _ => []
  | c :: cs, i, ps => (if ps.contains i then '\n' else c) :: replaceGo cs (i + 1) ps

/-- Distribute the computed breaks over the chain's references: breaks
strictly inside a span replace the space in place; a break on the boundary
appends the line break to the earlier reference and drops the consumed
space from the head of the later one. -/
def assemble (B : List Nat) : List (List Char) → Nat → List (List Char)
  | [], _ => []
  | t :: ts, s =>
    let e := s + t.length
    let inner := (B.filter (fun p => decide (s < p) && decide (p < e))).map (fun p => p - s)
    let t1 := replaceGo t 0 inner
    let t2 := if B.contains s && !(s == 0) then t1.drop 1 else t1
    let t3 := if B.contains e then t2 ++ ['\n'] else t2
    t3 :: assemble B ts e

/-- Reflow one glue chain: wrap the concatenated buffer and map the breaks
back to the owning references. -/
def reflowChain (texts : List (List Char)) (width : Nat) : List (List Char) :=
  let buf := texts.foldr (· ++ ·) []
  assemble (breaks width (wordsGo buf 0 none)) texts 0

/-- Modelled from the spec: `TranslationDb.generate_linebroken_text_map`
(absent from the source tree) — offset → final display text for every
reference of every scene. -/
def generate_linebroken_text_map (db : TranslationDb) : List (Nat × List Char) :=
  db.scene_map.foldr (fun sc acc =>
    ((splitChains sc.2).foldr (fun chain acc2 =>
      (chain.map (fun tc => tc.offset)).zip
          (reflowChain (chain.map (resolveText db)) CHARS_PER_LINE) ++ acc2) []) ++ acc) []

/-- The two-line mock store of `LinebreakTests.mock_db`. -/
def mockDb (jp0 en0 jp1 en1 : List Char) (glued1 : Bool) : TranslationDb :=
  { scene_map := [("test_scene",
      [⟨0, jp0, 0, [], false, false⟩, ⟨1, jp1, 0, [], false, glued1⟩])],
    line_by_hash := [(jp0, ⟨jp0, some en0, none⟩), (jp1, ⟨jp1, some en1, none⟩)],
    overrides_by_offset := [] }

/-- C5: reflowing the glue chain `["\"Good morning, Shiki-san. You're up
early this morning.", "\""]` (second reference glued to the first) breaks
the first reference into two lines at the word boundary before `morning.`
and leaves the second reference unchanged
(`LinebreakTests.test_glue_lookahead`). -/
theorem reflow_glue_lookahead :
    generate_linebroken_text_map
        (mockDb "jp0".data "\"Good morning, Shiki-san. You're up early this morning.".data
          "jp1".data "\"".data true) =
      [(0, "\"Good morning, Shiki-san. You're up early this\nmorning.".data),
       (1, "\"".data)] := by rfl

/-- C4 counterexample: on the glue chain `["Laughing in frantic
desperation, I run over to Arcueid,", " and forcefully grab her by the
arm."]` the reflow output is not the claimed pair (first text plus a
trailing break, second text with its leading whitespace intact): the
leading space of the second reference is consumed by the break
(`LinebreakTests.test_glue_aligned_line` expects `"and forcefully…"`, not
`" and forcefully…"`). -/
theorem reflow_glue_aligned_not_head_untouched :
    generate_linebroken_text_map
        (mockDb "jp0".data "Laughing in frantic desperation, I run over to Arcueid,".data
          "jp1".data " and forcefully grab her by the arm.".data true) ≠
      [(0, "Laughing in frantic desperation, I run over to Arcueid,\n".data),
       (1, " and forcefully grab her by the arm.".data)] := by decide

/-- C4 (amended): reflowing that glue chain yields the first reference's
text with a trailing line break appended, and the second reference's text
with its leading space consumed by the break and otherwise unmodified
(`LinebreakTests.test_glue_aligned_line`). -/
theorem reflow_glue_aligned_line :
    generate_linebroken_text_map
        (mockDb "jp0".data "Laughing in frantic desperation, I run over to Arcueid,".data
          "jp1".data " and forcefully grab her by the arm.".data true) =
      [(0, "Laughing in frantic desperation, I run over to Arcueid,\n".data),
       (1, "and forcefully grab her by the arm.".data)] := by rfl

/-! ## Global completion metric (modelled)

Modelled from the spec: `TranslationDb.translated_percent` and
`set_translation_and_comment_for_hash` are absent from the source tree.
Section 4.2: the metric is the fraction of distinct `content_hash` entries
with non-empty translated text over all entries, as a percentage; setting a
translation by hash mutates the shared entry. -/

/-- Python truthiness of a translation field: present and non-empty. -/
def truthyText : Option (List Char) → Bool
  | none => false
  | some t => !t.isEmpty

/-- Number of hash-keyed entries carrying a non-empty translation. -/
def translatedEntryCount (db : TranslationDb) : Nat :=
  (db.line_by_hash.filter (fun p => truthyText p.2.en_text)).length

/-- Modelled from the spec: `TranslationDb.translated_percent`. -/
def translated_percent (db : TranslationDb) : ℚ :=
  if db.line_by_hash.length = 0 then 0
  else ((translatedEntryCount db : ℚ) * 100) / (db.line_by_hash.length : ℚ)

/-- Modelled from the spec:
`TranslationDb.set_translation_and_comment_for_hash` mutates the shared
entry for a hash. -/
def set_translation_and_comment_for_hash (db : TranslationDb) (h : List Char)
    (text : List Char) (comment : Option (List Char)) : TranslationDb :=
  { db with
    line_by_hash := db.line_by_hash.map (fun p =>
      if p.1 = h then (p.1, { p.2 with en_text := some text, comment := comment }) else p) }

theorem translatedEntryCount_le (db : TranslationDb) :
    translatedEntryCount db ≤ db.line_by_hash.length :=
  List.length_filter_le _ _

theorem translatedEntryCount_set_le (db : TranslationDb) (h text : List Char)
    (comment : Option (List Char)) (htext : text ≠ []) :
    translatedEntryCount db ≤
      translatedEntryCount (set_translation_and_comment_for_hash db h text comment) := by
  unfold translatedEntryCount set_translation_and_comment_for_hash
  dsimp only
  induction db.line_by_hash with
  | nil => exact Nat.le_refl 0
  | cons p rest ih =>
    rw [List.map_cons, List.filter_cons, List.filter_cons]
    by_cases hp : p.1 = h
    · rw [if_pos hp]
      dsimp only
      have htr : truthyText (some text) = true := by
        cases text with
        | nil => exact absurd rfl htext
        | cons a b => rfl
      rw [if_pos htr]
      cases hold : truthyText p.2.en_text
      · rw [if_neg (by decide), List.length_cons]
        exact Nat.le_succ_of_le ih
      · rw [if_pos rfl, List.length_cons, List.length_cons]
        exact Nat.succ_le_succ ih
    · rw [if_neg hp]
      cases hold : truthyText p.2.en_text
      · rw [if_neg (by decide), if_neg (by decide)]
        exact ih
      · rw [if_pos rfl, if_pos rfl, List.length_cons, List.length_cons]
        exact Nat.succ_le_succ ih

/-- C7: the global completion metric never decreases when a (non-empty)
translation is added, never exceeds 100, is blind to the scene map (so it
counts unique hashes, not raw occurrences), and is exactly the fraction of
distinct hash entries with non-empty translated text over all entries,
times 100. -/
theorem translated_percent_spec :
    (∀ (db : TranslationDb) (h text : List Char) (comment : Option (List Char)),
        text ≠ [] →
        translated_percent db ≤
          translated_percent (set_translation_and_comment_for_hash db h text comment)) ∧
    (∀ db : TranslationDb, translated_percent db ≤ 100) ∧
    (∀ (db : TranslationDb) (sm : List (String × List TextCommand)),
        translated_percent ⟨sm, db.line_by_hash, db.overrides_by_offset⟩ =
          translated_percent db) ∧
    (∀ db : TranslationDb,
        translated_percent db * (db.line_by_hash.length : ℚ) =
          (translatedEntryCount db : ℚ) * 100) := by
  refine ⟨?_, ?_, ?_, ?_⟩
  · intro db h text comment htext
    unfold translated_percent
    have hlen : (set_translation_and_comment_for_hash db h text comment).line_by_hash.length
        = db.line_by_hash.length := by
      unfold set_translation_and_comment_for_hash
      exact List.length_map _ _
    rw [hlen]
    by_cases h0 : db.line_by_hash.length = 0
    · rw [if_pos h0, if_pos h0]
    · rw [if_neg h0, if_neg h0]
      have hpos : (0 : ℚ) < (db.line_by_hash.length : ℚ) := by
        have : 0 < db.line_by_hash.length := Nat.pos_of_ne_zero h0
        exact_mod_cast this
      rw [div_le_div_iff_of_pos_right hpos]
      have := translatedEntryCount_set_le db h text comment htext
      have hc : (translatedEntryCount db : ℚ) ≤
          (translatedEntryCount (set_translation_and_comment_for_hash db h text comment) : ℚ) := by
        exact_mod_cast this
      nlinarith
  · intro db
    unfold translated_percent
    by_cases h0 : db.line_by_hash.length = 0
    · rw [if_pos h0]; norm_num
    · rw [if_neg h0]
      have hpos : (0 : ℚ) < (db.line_by_hash.length : ℚ) := by
        have : 0 < db.line_by_hash.length := Nat.pos_of_ne_zero h0
        exact_mod_cast this
      rw [div_le_iff₀ hpos]
      have hle : (translatedEntryCount db : ℚ) ≤ (db.line_by_hash.length : ℚ) := by
        exact_mod_cast translatedEntryCount_le db
      nlinarith
  · intro db sm
    unfold translated_percent translatedEntryCount
    rfl
  · intro db
    unfold translated_percent
    by_cases h0 : db.line_by_hash.length = 0
    · rw [if_pos h0]
      have : db.line_by_hash = [] := List.length_eq_zero.mp h0
      rw [show translatedEntryCount db = ((db.line_by_hash.filter
        (fun p => truthyText p.2.en_text)).length) from rfl, this]
      simp
    · rw [if_neg h0]
      have hpos : ((db.line_by_hash.length : ℚ)) ≠ 0 := by
        exact_mod_cast h0
      field_simp

/-- C7 witness: the metric facts applied to a concrete one-entry store. -/
theorem translated_percent_spec_witness :
    ("x".data : List Char) ≠ [] ∧
    translated_percent (TranslationDb.mk [] [("jp".data, ⟨"jp".data, none, none⟩)] []) ≤
      translated_percent (set_translation_and_comment_for_hash
        (TranslationDb.mk [] [("jp".data, ⟨"jp".data, none, none⟩)] []) "jp".data "x".data none) ∧
    translated_percent (set_translation_and_comment_for_hash
        (TranslationDb.mk [] [("jp".data, ⟨"jp".data, none, none⟩)] []) "jp".data "x".data none)
      ≤ 100 :=
  ⟨by decide, translated_percent_spec.1 _ "jp".data "x".data none (by decide),
    translated_percent_spec.2.1 _⟩

/-! ## Per-scene completion (`TranslationWindow.update_selected_scene_tl_percent`) -/

/-- Modelled from the spec: `TranslationDb.lines_for_scene` (absent from the
source tree) returns the scene's ordered reference list. -/
def lines_for_scene (db : TranslationDb) (scene : String) : List TextCommand :=
  (alookup scene db.scene_map).getD []

/-- The counting loop of `update_selected_scene_tl_percent`
(`translation_window.py` lines 178–185): `translated_count` and `idx`. -/
def sceneTlCounts (db : TranslationDb) (lines : List TextCommand) : Nat × Nat :=
  lines.foldl (fun acc line =>
    (acc.1 + (if truthyText (tl_line_with_hash db line.jp_hash).en_text then 1 else 0),
      acc.2 + 1)) (0, 0)

/-- The value `translated_count*100/max(idx, 1)` the window displays
(rounded to one decimal in the UI). -/
def update_selected_scene_tl_percent_value (db : TranslationDb) (scene : String) : ℚ :=
  let counts := sceneTlCounts db (lines_for_scene db scene)
  (counts.1 : ℚ) * 100 / ((max counts.2 1 : Nat) : ℚ)

theorem sceneTlCounts_eq (db : TranslationDb) (lines : List TextCommand) :
    sceneTlCounts db lines =
      (lines.countP (fun line => truthyText (tl_line_with_hash db line.jp_hash).en_text),
        lines.length) := by
  have key : ∀ (l : List TextCommand) (a b : Nat),
      l.foldl (fun acc line =>
        (acc.1 + (if truthyText (tl_line_with_hash db line.jp_hash).en_text then 1 else 0),
          acc.2 + 1)) (a, b) =
        (a + l.countP (fun line => truthyText (tl_line_with_hash db line.jp_hash).en_text),
          b + l.length) := by
    intro l
    induction l with
    | nil => intro a b; simp
    | cons x xs ih =>
      intro a b
      rw [List.foldl_cons, ih, List.countP_cons, List.length_cons]
      cases hx : truthyText (tl_line_with_hash db x.jp_hash).en_text
      · simp only [if_neg (by decide : ¬False)]
        simp [hx]
        omega
      · simp [hx]
        omega
  rw [sceneTlCounts, key]
  simp

/-- C8: the per-scene completion percentage is `100 ×` (number of reference
occurrences whose hash entry has a non-empty translation) `/` (total number
of reference occurrences) — the denominator is the raw occurrence count,
with duplicate hashes counted separately, not the number of unique
hashes. -/
theorem update_selected_scene_tl_percent_spec (db : TranslationDb) (scene : String)
    (hne : lines_for_scene db scene ≠ []) :
    update_selected_scene_tl_percent_value db scene =
      (((lines_for_scene db scene).countP
          (fun line => truthyText (tl_line_with_hash db line.jp_hash).en_text) : ℚ) * 100) /
        ((lines_for_scene db scene).length : ℚ) := by
  unfold update_selected_scene_tl_percent_value
  rw [sceneTlCounts_eq]
  dsimp only
  have hlen : 1 ≤ (lines_for_scene db scene).length := by
    cases hx : lines_for_scene db scene with
    | nil => exact absurd hx hne
    | cons a b => simp
  have hmax : ((max (lines_for_scene db scene).length 1 : Nat) : ℚ) =
      ((lines_for_scene db scene).length : ℚ) := by
    rw [Nat.max_eq_left hlen]
  rw [hmax]

/-- A three-occurrence scene over two hashes, one of them translated. -/
def duplicateHashDb : TranslationDb :=
  TranslationDb.mk
    [("s", [⟨0, "j1".data, 0, [], false, false⟩, ⟨1, "j1".data, 0, [], false, false⟩,
      ⟨2, "j2".data, 0, [], false, false⟩])]
    [("j1".data, ⟨"j1".data, some "tl".data, none⟩), ("j2".data, ⟨"j2".data, none, none⟩)]
    []

/-- C8 witness: a scene with three occurrences, two of them sharing one
translated hash, scores `200/3` percent (whereas the unique-hash fraction
would be one half). -/
theorem update_selected_scene_tl_percent_spec_witness :
    lines_for_scene duplicateHashDb "s" ≠ [] ∧
    update_selected_scene_tl_percent_value duplicateHashDb "s" = 200 / 3 := by
  constructor
  · decide
  · rw [update_selected_scene_tl_percent_spec _ _ (by decide)]
    have h1 : (lines_for_scene duplicateHashDb "s").countP
        (fun line => truthyText (tl_line_with_hash duplicateHashDb line.jp_hash).en_text) = 2 := by
      decide
    have h2 : (lines_for_scene duplicateHashDb "s").length = 3 := by decide
    rw [h1, h2]
    norm_num

/-! ## Charswap configuration (`TranslationWindow.save_charswap_config`) -/

/-- Python `str.strip` whitespace class. -/
def isSpaceC (c : Char) : Bool :=
  c = ' ' || c = '\t' || c = '\n' || c = '\r' || c = '\x0b' || c = '\x0c'

/-- Python `str.strip()`: drop leading and trailing whitespace. -/
def pstrip (l : List Char) : List Char :=
  ((l.dropWhile isSpaceC).reverse.dropWhile isSpaceC).reverse

/-- Python `dict` assignment: update an existing key in place, append a new
one. -/
def dictInsert {α β : Type} [DecidableEq α] (m : List (α × β)) (k : α) (v : β) :
    List (α × β) :=
  if (alookup k m).isSome then m.map (fun p => if p.1 = k then (p.1, v) else p)
  else m ++ [(k, v)]

/-- One iteration of the `save_charswap_config` loop
(`translation_window.py` lines 482–492), carrying the swap map and the
diagnostics issued so far: blank lines are skipped silently, lines that do
not split on commas into exactly two fields are skipped with a diagnostic,
and the remaining lines contribute their stripped pair. -/
def charswapStep (acc : List (List Char × List Char) × List (List Char)) (line : List Char) :
    List (List Char × List Char) × List (List Char) :=
  if line.isEmpty then acc
  else
    match splitOnChar ',' line with
    | [a, b] => (dictInsert acc.1 (pstrip a) (pstrip b), acc.2)
    | _ => (acc.1, acc.2 ++ [line])

/-- The parse half of `TranslationWindow.save_charswap_config`: swap map and
diagnostics computed from the configuration text. -/
def save_charswap_config_map (conf : List Char) :
    List (List Char × List Char) × List (List Char) :=
  (splitOnChar '\n' conf).foldl charswapStep ([], [])

/-- C9 counterexample: a configuration consisting of one blank line is
skipped, but silently — no diagnostic is issued for it, contradicting the
claim that every blank line is skipped with a diagnostic. -/
theorem charswap_blank_line_no_diagnostic :
    splitOnChar '\n' "\n".data = [[], []] ∧
      save_charswap_config_map "\n".data = ([], []) := by decide

/-- C9 (amended): parsing a charswap configuration never fails — every
blank line is skipped silently (removing it does not change the result),
every non-blank line that does not split on commas into exactly two fields
is skipped with a diagnostic and leaves the map untouched, and each
remaining line `a,b` contributes exactly the pair of its two
whitespace-stripped fields to the swap map. -/
theorem save_charswap_config_spec :
    (∀ (conf : List Char) (lines1 lines2 : List (List Char)),
        splitOnChar '\n' conf = lines1 ++ [] :: lines2 →
          save_charswap_config_map conf =
            (lines1 ++ lines2).foldl charswapStep ([], [])) ∧
    (∀ (acc : List (List Char × List Char) × List (List Char)) (line : List Char),
        line ≠ [] → (splitOnChar ',' line).length ≠ 2 →
          charswapStep acc line = (acc.1, acc.2 ++ [line])) ∧
    (∀ (acc : List (List Char × List Char) × List (List Char)) (a b line : List Char),
        splitOnChar ',' line = [a, b] →
          charswapStep acc line = (dictInsert acc.1 (pstrip a) (pstrip b), acc.2)) := by
  refine ⟨?_, ?_, ?_⟩
  · intro conf lines1 lines2 hsplit
    unfold save_charswap_config_map
    rw [hsplit, List.foldl_append, List.foldl_append, List.foldl_cons]
    rfl
  · intro acc line hne hlen
    unfold charswapStep
    rw [if_neg (by cases line with
      | nil => exact absurd rfl hne
      | cons c cs => simp)]
    rcases hs : splitOnChar ',' line with - | ⟨a, tl⟩
    · rfl
    · rcases tl with - | ⟨b, tl2⟩
      · rfl
      · rcases tl2 with - | ⟨c, tl3⟩
        · rw [hs] at hlen
          simp at hlen
        · rfl
  · intro acc a b line hs
    have hne : line ≠ [] := by
      intro hnil
      rw [hnil] at hs
      simp [splitOnChar] at hs
    unfold charswapStep
    rw [if_neg (by cases line with
      | nil => exact absurd rfl hne
      | cons c cs => simp)]
    rw [hs]

/-- C9 witness: the amended behavior on concrete configuration lines. -/
theorem save_charswap_config_spec_witness :
    save_charswap_config_map "a,b\n\nc,d".data =
      ["a,b".data, "c,d".data].foldl charswapStep ([], []) ∧
    charswapStep ([], []) "bad".data = ([], ["bad".data]) ∧
    charswapStep ([], []) " x , y ".data = ([("x".data, "y".data)], []) := by
  refine ⟨save_charswap_config_spec.1 _ ["a,b".data] ["c,d".data] (by decide),
    save_charswap_config_spec.2.1 ([], []) "bad".data (by decide) (by decide), ?_⟩
  rw [save_charswap_config_spec.2.2 ([], []) " x ".data " y ".data " x , y ".data (by decide)]
  decide

/-! ## Legacy import scan (`TranslationWindow.import_legacy_updates`)

The per-file parser `TranslationDb.import_legacy_update_file` is absent from
the source tree (and the legacy file syntax is explicitly out of the spec's
scope), so the loop is embedded from `translation_window.py` lines 863–883
over an arbitrary importer: a file whose import succeeds is consumed
(deleted), a file whose import raises is reported and left in place, and the
loop always continues with the remaining files. -/

/-- A candidate file in the legacy update folder. -/
structure LFile where
  name : List Char
  content : List Char
deriving DecidableEq, Repr

/-- The `.txt` filter of the scan loop. -/
def endsWithTxt (name : List Char) : Bool :=
  decide (name.reverse.take 4 = ['t', 'x', 't', '.'])

/-- The error report `import_legacy_updates` prints for a failing file. -/
def legacyFailMsg (f : LFile) (e : List Char) : List Char :=
  "Failed to apply updates from ".data ++ f.name ++ ": ".data ++ e

/-- The scan loop of `TranslationWindow.import_legacy_updates`: returns the
final store, the files still present in the folder afterwards, and the
reported errors, given the per-file importer. -/
def import_legacy_updates
    (importer : TranslationDb → List Char → Except (List Char) TranslationDb)
    (db : TranslationDb) : List LFile → TranslationDb × List LFile × List (List Char)
  | [] => (db, [], [])
  | f :: fs =>
    if endsWithTxt f.name then
      match importer db f.content with
      | .ok db2 =>
        let r := import_legacy_updates importer db2 fs
        (r.1, r.2.1, r.2.2)
      | .error e =>
        let r := import_legacy_updates importer db fs
        (r.1, f :: r.2.1, legacyFailMsg f e :: r.2.2)
    else
      let r := import_legacy_updates importer db fs
      (r.1, f :: r.2.1, r.2.2)

/-- C6: a malformed legacy file (one every store state rejects) changes
nothing: the final store is the one obtained by processing the queue without
it, the file itself is left unconsumed in the folder, and its failure is
reported while the remaining files are still processed. -/
theorem import_legacy_updates_spec
    (importer : TranslationDb → List Char → Except (List Char) TranslationDb)
    (bad : LFile) (e : List Char) (hbadtxt : endsWithTxt bad.name = true)
    (hfail : ∀ d : TranslationDb, importer d bad.content = .error e) :
    ∀ (pre post : List LFile) (db : TranslationDb),
      (import_legacy_updates importer db (pre ++ bad :: post)).1 =
        (import_legacy_updates importer db (pre ++ post)).1 ∧
      bad ∈ (import_legacy_updates importer db (pre ++ bad :: post)).2.1 ∧
      legacyFailMsg bad e ∈ (import_legacy_updates importer db (pre ++ bad :: post)).2.2 := by
  intro pre
  induction pre with
  | nil =>
    intro post db
    rw [List.nil_append, List.nil_append]
    simp only [import_legacy_updates]
    rw [hbadtxt, hfail db]
    exact ⟨rfl, List.mem_cons_self _ _, List.mem_cons_self _ _⟩
  | cons f fs ih =>
    intro post db
    rw [List.cons_append, List.cons_append]
    simp only [import_legacy_updates]
    by_cases htxt : endsWithTxt f.name = true
    · rw [htxt]
      simp only [if_true]
      cases himp : importer db f.content with
      | ok db2 =>
        obtain ⟨h1, h2, h3⟩ := ih post db2
        exact ⟨h1, h2, h3⟩
      | error e2 =>
        obtain ⟨h1, h2, h3⟩ := ih post db
        exact ⟨h1, List.mem_cons_of_mem f h2, List.mem_cons_of_mem _ h3⟩
    · rw [Bool.not_eq_true] at htxt
      rw [htxt]
      simp only [Bool.false_eq_true, if_false]
      obtain ⟨h1, h2, h3⟩ := ih post db
      exact ⟨h1, List.mem_cons_of_mem f h2, h3⟩

/-- C6 witness: the spec applied to a one-good-one-bad-one-good queue with a
concrete importer that rejects the malformed payload. -/
theorem import_legacy_updates_spec_witness :
    endsWithTxt ("b.txt".data) = true ∧
    (import_legacy_updates
        (fun d s => if s = "good".data then .ok d else .error "malformed".data)
        (TranslationDb.mk [] [] [])
        [⟨"a.txt".data, "good".data⟩, ⟨"b.txt".data, "bad".data⟩,
          ⟨"c.txt".data, "good".data⟩]).1 =
      (import_legacy_updates
        (fun d s => if s = "good".data then .ok d else .error "malformed".data)
        (TranslationDb.mk [] [] [])
        [⟨"a.txt".data, "good".data⟩, ⟨"c.txt".data, "good".data⟩]).1 ∧
    (⟨"b.txt".data, "bad".data⟩ : LFile) ∈
      (import_legacy_updates
        (fun d s => if s = "good".data then .ok d else .error "malformed".data)
        (TranslationDb.mk [] [] [])
        [⟨"a.txt".data, "good".data⟩, ⟨"b.txt".data, "bad".data⟩,
          ⟨"c.txt".data, "good".data⟩]).2.1 ∧
    legacyFailMsg ⟨"b.txt".data, "bad".data⟩ "malformed".data ∈
      (import_legacy_updates
        (fun d s => if s = "good".data then .ok d else .error "malformed".data)
        (TranslationDb.mk [] [] [])
        [⟨"a.txt".data, "good".data⟩, ⟨"b.txt".data, "bad".data⟩,
          ⟨"c.txt".data, "good".data⟩]).2.2 := by
  have h := import_legacy_updates_spec
    (fun d s => if s = "good".data then .ok d else .error "malformed".data)
    ⟨"b.txt".data, "bad".data⟩ "malformed".data (by decide)
    (fun d => by
      show (if ("bad".data : List Char) = "good".data
        then Except.ok d else Except.error "malformed".data) = Except.error "malformed".data
      rw [if_neg (by decide)])
    [⟨"a.txt".data, "good".data⟩] [⟨"c.txt".data, "good".data⟩]
    (TranslationDb.mk [] [] [])
  exact ⟨by decide, h.1, h.2.1, h.2.2⟩

/-! ## Conflict resolution (`TranslationWindow.commit_conflict_resolution`)

The dialog caches the conflicting groups (hash → candidate entries, in
sorted hash order) and one selection listbox per group; committing walks the
groups, skips those with no selection, commits every non-selected candidate
of a selected group by hash (deleting any stale override at its offset) and
then writes every selected candidate as an offset override
(`translation_window.py` lines 826–855).  The store mutators called by the
loop live in the absent `translation_db.py` and are modelled from
section 4.2 of the spec. -/

/-- One candidate entry of a conflict group (`ReadableExporter` entry shape:
source file, line, offset, translation, comment). -/
structure ImportEntry where
  filename : String
  line : Nat
  offset : Nat
  en_text : List Char
  comment : Option (List Char)
deriving DecidableEq, Repr

/-- Placeholder entry for out-of-range indexing (never reached on
well-formed selections). -/
def dfltEntry : ImportEntry := ⟨"", 0, 0, [], none⟩

/-- Modelled from the spec: removing an offset override
(`del _overrides_by_offset[offset]`). -/
def delete_override_for_offset (db : TranslationDb) (off : Nat) : TranslationDb :=
  { db with overrides_by_offset := db.overrides_by_offset.filter (fun p => decide (p.1 ≠ off)) }

/-- Modelled from the spec:
`TranslationDb.override_translation_and_comment_for_offset` creates or
updates the override for exactly one offset. -/
def override_translation_and_comment_for_offset (db : TranslationDb) (off : Nat)
    (text : List Char) (comment : Option (List Char)) : TranslationDb :=
  { db with overrides_by_offset := dictInsert db.overrides_by_offset off (text, comment) }

/-- The first, by-hash half of the loop body: every non-selected candidate
is committed by hash in index order, clearing any override at its offset. -/
def commitGroupPhase1 (jp_hash : List Char) (entries : List ImportEntry) (sel : List Nat)
    (idxs : List Nat) (db : TranslationDb) : TranslationDb :=
  idxs.foldl (fun d index =>
    if sel.contains index then d
    else
      delete_override_for_offset
        (set_translation_and_comment_for_hash d jp_hash (entries.getD index dfltEntry).en_text
          (entries.getD index dfltEntry).comment)
        (entries.getD index dfltEntry).offset) db

/-- The second half: every selected candidate becomes an offset override. -/
def commitGroupPhase2 (entries : List ImportEntry) (sel : List Nat) (db : TranslationDb) :
    TranslationDb :=
  sel.foldl (fun d i =>
    override_translation_and_comment_for_offset d (entries.getD i dfltEntry).offset
      (entries.getD i dfltEntry).en_text (entries.getD i dfltEntry).comment) db

/-- One group of the commit loop: nothing happens without a selection. -/
def commitGroup (db : TranslationDb) (jp_hash : List Char) (entries : List ImportEntry)
    (sel : List Nat) : TranslationDb :=
  if sel.isEmpty then db
  else commitGroupPhase2 entries sel
    (commitGroupPhase1 jp_hash entries sel (List.range entries.length) db)

/-- `TranslationWindow.commit_conflict_resolution`: fold the per-group
commit over the cached conflict groups paired with their selections. -/
def commit_conflict_resolution (db : TranslationDb)
    (groups : List (List Char × List ImportEntry)) (sels : List (List Nat)) : TranslationDb :=
  (groups.zip sels).foldl (fun d g => commitGroup d g.1.1 g.1.2 g.2) db

/-! ### Lookup lemmas for the store mutators -/

theorem alookup_map_update {h h' : List Char} {l : List (List Char × TLLine)}
    {text : List Char} {comment : Option (List Char)} :
    alookup h' (l.map (fun p =>
        if p.1 = h then (p.1, { p.2 with en_text := some text, comment := comment }) else p)) =
      if h' = h then
        (alookup h' l).map (fun e => { e with en_text := some text, comment := comment })
      else alookup h' l := by
  induction l with
  | nil => by_cases hc : h' = h <;> simp [alookup, hc]
  | cons p rest ih =>
    obtain ⟨pk, pv⟩ := p
    rw [List.map_cons]
    dsimp only
    by_cases hp : pk = h
    · rw [if_pos hp]
      simp only [alookup]
      by_cases hph : pk = h'
      · rw [if_pos hph, if_pos hph, if_pos (by rw [← hph, hp]), Option.map_some']
      · rw [if_neg hph, if_neg hph, ih]
    · rw [if_neg hp]
      simp only [alookup]
      by_cases hph : pk = h'
      · rw [if_pos hph, if_pos hph, if_neg (by rw [← hph]; exact hp)]
      · rw [if_neg hph, if_neg hph, ih]

theorem set_hash_lines {db : TranslationDb} {h h' text comment} :
    alookup h' (set_translation_and_comment_for_hash db h text comment).line_by_hash =
      if h' = h then
        (alookup h' db.line_by_hash).map
          (fun e => { e with en_text := some text, comment := comment })
      else alookup h' db.line_by_hash :=
  alookup_map_update

theorem set_hash_overrides {db : TranslationDb} {h text comment} :
    (set_translation_and_comment_for_hash db h text comment).overrides_by_offset =
      db.overrides_by_offset := rfl

theorem delete_override_lines {db : TranslationDb} {off} :
    (delete_override_for_offset db off).line_by_hash = db.line_by_hash := rfl

theorem alookup_filter_ne {β : Type} {o o' : Nat} {l : List (Nat × β)} (hne : o' ≠ o) :
    alookup o' (l.filter (fun p => decide (p.1 ≠ o))) = alookup o' l := by
  induction l with
  | nil => rfl
  | cons p rest ih =>
    obtain ⟨pk, pv⟩ := p
    rw [List.filter_cons]
    by_cases hp : pk = o
    · rw [if_neg (by simp [hp])]
      rw [alookup, if_neg (by rw [hp]; exact fun hc => hne hc.symm), ih]
    · rw [if_pos (by simp [hp])]
      simp only [alookup]
      by_cases hpo : pk = o'
      · rw [if_pos hpo, if_pos hpo]
      · rw [if_neg hpo, if_neg hpo, ih]

theorem delete_override_other {db : TranslationDb} {off o : Nat} (hne : o ≠ off) :
    alookup o (delete_override_for_offset db off).overrides_by_offset =
      alookup o db.overrides_by_offset :=
  alookup_filter_ne hne

theorem override_lines {db : TranslationDb} {off text comment} :
    (override_translation_and_comment_for_offset db off text comment).line_by_hash =
      db.line_by_hash := rfl

theorem alookup_map_update_self {α β : Type} [DecidableEq α] {m : List (α × β)} {k : α}
    {v : β} (hk : (alookup k m).isSome) :
    alookup k (m.map (fun p => if p.1 = k then (p.1, v) else p)) = some v := by
  induction m with
  | nil => simp [alookup] at hk
  | cons p rest ih =>
    obtain ⟨pk, pv⟩ := p
    rw [List.map_cons]
    dsimp only
    by_cases hp : pk = k
    · rw [if_pos hp, alookup, if_pos hp]
    · rw [if_neg hp, alookup, if_neg hp]
      rw [alookup, if_neg hp] at hk
      exact ih hk

theorem alookup_append_single_self {α β : Type} [DecidableEq α] {m : List (α × β)} {k : α}
    {v : β} (hk : alookup k m = none) : alookup k (m ++ [(k, v)]) = some v := by
  induction m with
  | nil => rw [List.nil_append, alookup, if_pos rfl]
  | cons p rest ih =>
    obtain ⟨pk, pv⟩ := p
    rw [alookup] at hk
    by_cases hp : pk = k
    · rw [if_pos hp] at hk
      simp at hk
    · rw [if_neg hp] at hk
      rw [List.cons_append, alookup, if_neg hp]
      exact ih hk

theorem alookup_dictInsert_self {α β : Type} [DecidableEq α] {m : List (α × β)} {k : α}
    {v : β} : alookup k (dictInsert m k v) = some v := by
  unfold dictInsert
  by_cases hk : (alookup k m).isSome
  · rw [if_pos hk]
    exact alookup_map_update_self hk
  · rw [if_neg hk]
    exact alookup_append_single_self (Option.not_isSome_iff_eq_none.mp hk)

theorem alookup_map_update_ne {α β : Type} [DecidableEq α] {m : List (α × β)} {k k' : α}
    {v : β} (hne : k' ≠ k) :
    alookup k' (m.map (fun p => if p.1 = k then (p.1, v) else p)) = alookup k' m := by
  induction m with
  | nil => rfl
  | cons p rest ih =>
    obtain ⟨pk, pv⟩ := p
    rw [List.map_cons]
    dsimp only
    by_cases hp : pk = k
    · rw [if_pos hp, alookup, alookup]
      rw [if_neg (by rw [hp]; exact fun hc => hne hc.symm),
        if_neg (by rw [hp]; exact fun hc => hne hc.symm)]
      exact ih
    · rw [if_neg hp, alookup, alookup]
      by_cases hpk : pk = k'
      · rw [if_pos hpk, if_pos hpk]
      · rw [if_neg hpk, if_neg hpk]
        exact ih

theorem alookup_append_single_ne {α β : Type} [DecidableEq α] {m : List (α × β)} {k k' : α}
    {v : β} (hne : k' ≠ k) : alookup k' (m ++ [(k, v)]) = alookup k' m := by
  induction m with
  | nil =>
    rw [List.nil_append]
    simp only [alookup]
    rw [if_neg (show ¬k = k' from fun hc => hne hc.symm)]
  | cons p rest ih =>
    obtain ⟨pk, pv⟩ := p
    rw [List.cons_append, alookup, alookup]
    by_cases hpk : pk = k'
    · rw [if_pos hpk, if_pos hpk]
    · rw [if_neg hpk, if_neg hpk]
      exact ih

theorem alookup_dictInsert_other {α β : Type} [DecidableEq α] {m : List (α × β)} {k k' : α}
    {v : β} (hne : k' ≠ k) : alookup k' (dictInsert m k v) = alookup k' m := by
  unfold dictInsert
  by_cases hk : (alookup k m).isSome
  · rw [if_pos hk]
    exact alookup_map_update_ne hne
  · rw [if_neg hk]
    exact alookup_append_single_ne hne

theorem override_self {db : TranslationDb} {off text comment} :
    alookup off (override_translation_and_comment_for_offset db off text comment).overrides_by_offset
      = some (text, comment) :=
  alookup_dictInsert_self

theorem override_other {db : TranslationDb} {off o text comment} (hne : o ≠ off) :
    alookup o (override_translation_and_comment_for_offset db off text comment).overrides_by_offset
      = alookup o db.overrides_by_offset :=
  alookup_dictInsert_other hne

/-! ### Phase lemmas for one conflict group -/

/-- Effect of committing one candidate entry by hash on the shared line. -/
def applyEntry (e : ImportEntry) (l : TLLine) : TLLine :=
  { l with en_text := some e.en_text, comment := e.comment }

theorem phase1_lines (jp_hash : List Char) (es : List ImportEntry) (sel : List Nat) :
    ∀ (idxs : List Nat) (d : TranslationDb) (l0 : TLLine),
      alookup jp_hash d.line_by_hash = some l0 →
      alookup jp_hash (commitGroupPhase1 jp_hash es sel idxs d).line_by_hash =
        some (match (idxs.filter (fun i => !sel.contains i)).getLast? with
          | none => l0
          | some j => applyEntry (es.getD j dfltEntry) l0) := by
  intro idxs
  induction idxs with
  | nil => intro d l0 hl; exact hl
  | cons i rest ih =>
    intro d l0 hl
    rw [show commitGroupPhase1 jp_hash es sel (i :: rest) d =
      commitGroupPhase1 jp_hash es sel rest
        (if sel.contains i then d
         else delete_override_for_offset
            (set_translation_and_comment_for_hash d jp_hash (es.getD i dfltEntry).en_text
              (es.getD i dfltEntry).comment) (es.getD i dfltEntry).offset) from rfl]
    by_cases hil : sel.contains i = true
    · rw [if_pos hil]
      rw [List.filter_cons, if_neg (by rw [hil]; decide)]
      exact ih d l0 hl
    · rw [if_neg hil]
      rw [Bool.not_eq_true] at hil
      rw [List.filter_cons, if_pos (by rw [hil]; decide)]
      have hl2 : alookup jp_hash
          (delete_override_for_offset
            (set_translation_and_comment_for_hash d jp_hash (es.getD i dfltEntry).en_text
              (es.getD i dfltEntry).comment) (es.getD i dfltEntry).offset).line_by_hash =
          some (applyEntry (es.getD i dfltEntry) l0) := by
        rw [delete_override_lines, set_hash_lines, if_pos rfl, hl, Option.map_some']
        rfl
      have := ih _ _ hl2
      rw [this]
      cases hfr : List.filter (fun i => !sel.contains i) rest with
      | nil => rfl
      | cons y ys =>
        rw [List.getLast?_cons_cons]
        cases hgl : (y :: ys).getLast? with
        | none => rw [List.getLast?_eq_none_iff] at hgl; simp at hgl
        | some j => rfl

theorem phase1_lines_other (jp_hash : List Char) (es : List ImportEntry) (sel : List Nat)
    (h' : List Char) (hne : h' ≠ jp_hash) :
    ∀ (idxs : List Nat) (d : TranslationDb),
      alookup h' (commitGroupPhase1 jp_hash es sel idxs d).line_by_hash =
        alookup h' d.line_by_hash := by
  intro idxs
  induction idxs with
  | nil => intro d; rfl
  | cons i rest ih =>
    intro d
    rw [show commitGroupPhase1 jp_hash es sel (i :: rest) d =
      commitGroupPhase1 jp_hash es sel rest
        (if sel.contains i then d
         else delete_override_for_offset
            (set_translation_and_comment_for_hash d jp_hash (es.getD i dfltEntry).en_text
              (es.getD i dfltEntry).comment) (es.getD i dfltEntry).offset) from rfl]
    rw [ih]
    by_cases hil : sel.contains i = true
    · rw [if_pos hil]
    · rw [if_neg hil, delete_override_lines, set_hash_lines, if_neg hne]

theorem phase1_overrides_other (jp_hash : List Char) (es : List ImportEntry) (sel : List Nat)
    (o : Nat) :
    ∀ (idxs : List Nat),
      (∀ i ∈ idxs, sel.contains i = false → (es.getD i dfltEntry).offset ≠ o) →
      ∀ (d : TranslationDb),
        alookup o (commitGroupPhase1 jp_hash es sel idxs d).overrides_by_offset =
          alookup o d.overrides_by_offset := by
  intro idxs
  induction idxs with
  | nil => intro _ d; rfl
  | cons i rest ih =>
    intro hno d
    rw [show commitGroupPhase1 jp_hash es sel (i :: rest) d =
      commitGroupPhase1 jp_hash es sel rest
        (if sel.contains i then d
         else delete_override_for_offset
            (set_translation_and_comment_for_hash d jp_hash (es.getD i dfltEntry).en_text
              (es.getD i dfltEntry).comment) (es.getD i dfltEntry).offset) from rfl]
    rw [ih (fun j hj hs => hno j (List.mem_cons_of_mem i hj) hs)]
    by_cases hil : sel.contains i = true
    · rw [if_pos hil]
    · rw [if_neg hil]
      rw [Bool.not_eq_true] at hil
      have hoff := hno i (List.mem_cons_self i rest) hil
      rw [delete_override_other (fun hc => hoff hc.symm), set_hash_overrides]

theorem phase2_lines (es : List ImportEntry) :
    ∀ (sel : List Nat) (d : TranslationDb),
      (commitGroupPhase2 es sel d).line_by_hash = d.line_by_hash := by
  intro sel
  induction sel with
  | nil => intro d; rfl
  | cons i rest ih =>
    intro d
    rw [show commitGroupPhase2 es (i :: rest) d = commitGroupPhase2 es rest
      (override_translation_and_comment_for_offset d (es.getD i dfltEntry).offset
        (es.getD i dfltEntry).en_text (es.getD i dfltEntry).comment) from rfl]
    rw [ih, override_lines]

theorem phase2_overrides_other (es : List ImportEntry) (o : Nat) :
    ∀ (sel : List Nat), (∀ i ∈ sel, (es.getD i dfltEntry).offset ≠ o) →
      ∀ (d : TranslationDb),
        alookup o (commitGroupPhase2 es sel d).overrides_by_offset =
          alookup o d.overrides_by_offset := by
  intro sel
  induction sel with
  | nil => intro _ d; rfl
  | cons i rest ih =>
    intro hno d
    rw [show commitGroupPhase2 es (i :: rest) d = commitGroupPhase2 es rest
      (override_translation_and_comment_for_offset d (es.getD i dfltEntry).offset
        (es.getD i dfltEntry).en_text (es.getD i dfltEntry).comment) from rfl]
    rw [ih (fun j hj => hno j (List.mem_cons_of_mem i hj))]
    exact override_other (fun hc => hno i (List.mem_cons_self i rest) hc.symm)

theorem phase2_overrides_self (es : List ImportEntry) :
    ∀ (sel : List Nat),
      (sel.map (fun i => (es.getD i dfltEntry).offset)).Nodup →
      ∀ (d : TranslationDb) (i : Nat), i ∈ sel →
        alookup (es.getD i dfltEntry).offset
            (commitGroupPhase2 es sel d).overrides_by_offset =
          some ((es.getD i dfltEntry).en_text, (es.getD i dfltEntry).comment) := by
  intro sel
  induction sel with
  | nil => intro _ d i hi; cases hi
  | cons j rest ih =>
    intro hnodup d i hi
    rw [List.map_cons, List.nodup_cons] at hnodup
    obtain ⟨hjnot, hrest⟩ := hnodup
    rw [show commitGroupPhase2 es (j :: rest) d = commitGroupPhase2 es rest
      (override_translation_and_comment_for_offset d (es.getD j dfltEntry).offset
        (es.getD j dfltEntry).en_text (es.getD j dfltEntry).comment) from rfl]
    rcases List.mem_cons.mp hi with rfl | hirest
    · rw [phase2_overrides_other es _ rest ?noff _]
      · exact override_self
      case noff =>
        intro k hk hc
        exact hjnot (by rw [← hc]; exact List.mem_map_of_mem _ hk)
    · exact ih hrest _ i hirest

/-! ### Group-level and fold-level frame lemmas -/

theorem getD_mem_of_lt {α : Type} (l : List α) (d : α) {i : Nat} (h : i < l.length) :
    l.getD i d ∈ l := by
  rw [List.getD_eq_getElem l d h]
  exact List.getElem_mem h

theorem commitGroup_lines_other {db : TranslationDb} {jp_hash : List Char}
    {es : List ImportEntry} {sel : List Nat} {h' : List Char} (hne : h' ≠ jp_hash) :
    alookup h' (commitGroup db jp_hash es sel).line_by_hash =
      alookup h' db.line_by_hash := by
  unfold commitGroup
  split
  · rfl
  · rw [phase2_lines, phase1_lines_other jp_hash es sel h' hne]

theorem commitGroup_overrides_other {db : TranslationDb} {jp_hash : List Char}
    {es : List ImportEntry} {sel : List Nat} {o : Nat}
    (hofs : ∀ e ∈ es, e.offset ≠ o) (hval : ∀ i ∈ sel, i < es.length) :
    alookup o (commitGroup db jp_hash es sel).overrides_by_offset =
      alookup o db.overrides_by_offset := by
  unfold commitGroup
  split
  · rfl
  · rw [phase2_overrides_other es o sel
      (fun i hi => hofs _ (getD_mem_of_lt es dfltEntry (hval i hi)))]
    rw [phase1_overrides_other jp_hash es sel o (List.range es.length)
      (fun i hi _ => hofs _ (getD_mem_of_lt es dfltEntry (List.mem_range.mp hi))) db]

theorem commitFold_lines_other (h : List Char) :
    ∀ (W : List ((List Char × List ImportEntry) × List Nat)) (d : TranslationDb),
      (∀ g ∈ W, g.1.1 ≠ h) →
      alookup h (W.foldl (fun d g => commitGroup d g.1.1 g.1.2 g.2) d).line_by_hash =
        alookup h d.line_by_hash := by
  intro W
  induction W with
  | nil => intro d _; rfl
  | cons g W ih =>
    intro d hW
    rw [List.foldl_cons, ih _ (fun g' hg' => hW g' (List.mem_cons_of_mem g hg'))]
    exact commitGroup_lines_other (fun hc => hW g (List.mem_cons_self g W) hc.symm)

theorem commitFold_overrides_other (o : Nat) :
    ∀ (W : List ((List Char × List ImportEntry) × List Nat)) (d : TranslationDb),
      (∀ g ∈ W, (∀ e ∈ g.1.2, e.offset ≠ o) ∧ (∀ i ∈ g.2, i < g.1.2.length)) →
      alookup o (W.foldl (fun d g => commitGroup d g.1.1 g.1.2 g.2) d).overrides_by_offset =
        alookup o d.overrides_by_offset := by
  intro W
  induction W with
  | nil => intro d _; rfl
  | cons g W ih =>
    intro d hW
    rw [List.foldl_cons, ih _ (fun g' hg' => hW g' (List.mem_cons_of_mem g hg'))]
    exact commitGroup_overrides_other (hW g (List.mem_cons_self g W)).1
      (hW g (List.mem_cons_self g W)).2

theorem sel_offsets_nodup {es : List ImportEntry} {sel : List Nat}
    (hes : (es.map ImportEntry.offset).Nodup) (hnd : sel.Nodup)
    (hv : ∀ i ∈ sel, i < es.length) :
    (sel.map (fun i => (es.getD i dfltEntry).offset)).Nodup := by
  refine List.Nodup.map_on ?_ hnd
  intro i hi j hj heq
  have hi' : i < es.length := hv i hi
  have hj' : j < es.length := hv j hj
  rw [List.getD_eq_getElem es dfltEntry hi', List.getD_eq_getElem es dfltEntry hj'] at heq
  have hil : i < (es.map ImportEntry.offset).length := by simpa using hi'
  have hjl : j < (es.map ImportEntry.offset).length := by simpa using hj'
  have hmap : (es.map ImportEntry.offset).get ⟨i, hil⟩ = (es.map ImportEntry.offset).get ⟨j, hjl⟩ := by
    simpa using heq
  have hinj := List.nodup_iff_injective_get.mp hes
  have hij := hinj hmap
  exact congrArg Fin.val hij

theorem commitGroup_empty (db : TranslationDb) (jp_hash : List Char)
    (es : List ImportEntry) : commitGroup db jp_hash es [] = db := by
  unfold commitGroup
  exact if_pos rfl

theorem isEmpty_false_of_ne_nil {sel : List Nat} (h : sel ≠ []) : sel.isEmpty = false := by
  cases sel with
  | nil => exact absurd rfl h
  | cons a b => rfl

/-- C2: committing a conflict resolution.  For every conflict group (one
hash with its candidate entries and the human's selected indices), in a
well-formed batch (distinct group hashes, each offset owned by one entry,
valid distinct selections): a group with no selection is left entirely
uncommitted (its hash entry and its entries' overrides are untouched); in a
selected group every selected entry becomes the offset override for its
offset, and the non-selected entries are committed by hash in index order,
so that the last non-selected entry's translation and comment become the
shared hash-keyed translation (last-write-wins). -/
theorem commit_conflict_resolution_spec
    (db : TranslationDb) (groups : List (List Char × List ImportEntry)) (sels : List (List Nat))
    (pre post : List ((List Char × List ImportEntry) × List Nat))
    (h : List Char) (es : List ImportEntry) (sel : List Nat)
    (hz : groups.zip sels = pre ++ ((h, es), sel) :: post)
    (hkeys : ((pre ++ ((h, es), sel) :: post).map (fun g => g.1.1)).Nodup)
    (hoffs : ((pre ++ ((h, es), sel) :: post).flatMap
      (fun g => g.1.2.map ImportEntry.offset)).Nodup)
    (hval : ∀ g ∈ pre ++ ((h, es), sel) :: post, ∀ i ∈ g.2, i < g.1.2.length)
    (hselnd : sel.Nodup) :
    (sel = [] →
      alookup h (commit_conflict_resolution db groups sels).line_by_hash =
        alookup h db.line_by_hash ∧
      ∀ e ∈ es,
        alookup e.offset (commit_conflict_resolution db groups sels).overrides_by_offset =
          alookup e.offset db.overrides_by_offset) ∧
    (sel ≠ [] →
      (∀ i ∈ sel,
        alookup (es.getD i dfltEntry).offset
            (commit_conflict_resolution db groups sels).overrides_by_offset =
          some ((es.getD i dfltEntry).en_text, (es.getD i dfltEntry).comment)) ∧
      (∀ l0, alookup h db.line_by_hash = some l0 →
        ((List.range es.length).filter (fun i => !sel.contains i) = [] →
          alookup h (commit_conflict_resolution db groups sels).line_by_hash = some l0) ∧
        (∀ j, ((List.range es.length).filter (fun i => !sel.contains i)).getLast? = some j →
          alookup h (commit_conflict_resolution db groups sels).line_by_hash =
            some (applyEntry (es.getD j dfltEntry) l0)))) := by
  have hrw : commit_conflict_resolution db groups sels =
      List.foldl (fun d g => commitGroup d g.1.1 g.1.2 g.2)
        (commitGroup (List.foldl (fun d g => commitGroup d g.1.1 g.1.2 g.2) db pre) h es sel)
        post := by
    unfold commit_conflict_resolution
    rw [hz, List.foldl_append, List.foldl_cons]
  -- hash disjointness
  rw [List.map_append, List.map_cons, List.nodup_append] at hkeys
  obtain ⟨-, hmid, hdisj⟩ := hkeys
  rw [List.nodup_cons] at hmid
  have hpost_keys : ∀ g ∈ post, g.1.1 ≠ h := by
    intro g hg hc
    exact hmid.1 (hc ▸ List.mem_map_of_mem (fun g => g.1.1) hg)
  have hpre_keys : ∀ g ∈ pre, g.1.1 ≠ h := by
    intro g hg hc
    exact hdisj (List.mem_map_of_mem (fun g => g.1.1) hg)
      (by rw [hc]; exact List.mem_cons_self _ _)
  -- offset disjointness
  rw [List.flatMap_append, List.flatMap_cons, List.nodup_append] at hoffs
  obtain ⟨-, hmid2, hdisj2⟩ := hoffs
  rw [List.nodup_append] at hmid2
  obtain ⟨hes_nodup, -, hdisj3⟩ := hmid2
  have hpre_off : ∀ e ∈ es, ∀ g ∈ pre, ∀ e' ∈ g.1.2, e'.offset ≠ e.offset := by
    intro e he g hg e' he' hc
    exact hdisj2 (List.mem_flatMap.mpr ⟨g, hg, List.mem_map_of_mem ImportEntry.offset he'⟩)
      (List.mem_append_left _ (hc ▸ List.mem_map_of_mem ImportEntry.offset he))
  have hpost_off : ∀ e ∈ es, ∀ g ∈ post, ∀ e' ∈ g.1.2, e'.offset ≠ e.offset := by
    intro e he g hg e' he' hc
    exact hdisj3 (List.mem_map_of_mem ImportEntry.offset he)
      (List.mem_flatMap.mpr ⟨g, hg, hc ▸ List.mem_map_of_mem ImportEntry.offset he'⟩)
  have hvalc : ∀ i ∈ sel, i < es.length :=
    hval (((h, es), sel)) (List.mem_append_right _ (List.mem_cons_self _ _))
  have hval_pre : ∀ g ∈ pre, ∀ i ∈ g.2, i < g.1.2.length :=
    fun g hg => hval g (List.mem_append_left _ hg)
  have hval_post : ∀ g ∈ post, ∀ i ∈ g.2, i < g.1.2.length :=
    fun g hg => hval g (List.mem_append_right _ (List.mem_cons_of_mem _ hg))
  constructor
  · -- no selection: group untouched
    intro hsel0
    subst hsel0
    rw [hrw, commitGroup_empty]
    constructor
    · rw [commitFold_lines_other h post _ hpost_keys,
        commitFold_lines_other h pre db hpre_keys]
    · intro e he
      rw [commitFold_overrides_other e.offset post _
        (fun g hg => ⟨fun e' he' => hpost_off e he g hg e' he', hval_post g hg⟩)]
      rw [commitFold_overrides_other e.offset pre db
        (fun g hg => ⟨fun e' he' => hpre_off e he g hg e' he', hval_pre g hg⟩)]
  · intro hselne
    have hne : sel.isEmpty = false := isEmpty_false_of_ne_nil hselne
    constructor
    · -- selected entries become offset overrides
      intro i hi
      have hei : es.getD i dfltEntry ∈ es := getD_mem_of_lt es dfltEntry (hvalc i hi)
      rw [hrw]
      rw [commitFold_overrides_other (es.getD i dfltEntry).offset post _
        (fun g hg => ⟨fun e' he' => hpost_off _ hei g hg e' he', hval_post g hg⟩)]
      unfold commitGroup
      rw [if_neg (by rw [hne]; exact Bool.false_ne_true)]
      exact phase2_overrides_self es sel
        (sel_offsets_nodup hes_nodup hselnd hvalc) _ i hi
    · -- last non-selected entry wins the hash
      intro l0 hl0
      have hd1 : alookup h (List.foldl (fun d g => commitGroup d g.1.1 g.1.2 g.2)
          db pre).line_by_hash = some l0 := by
        rw [commitFold_lines_other h pre db hpre_keys]
        exact hl0
      have hcg : alookup h (commit_conflict_resolution db groups sels).line_by_hash =
          some (match ((List.range es.length).filter
              (fun i => !sel.contains i)).getLast? with
            | none => l0
            | some j => applyEntry (es.getD j dfltEntry) l0) := by
        rw [hrw, commitFold_lines_other h post _ hpost_keys]
        unfold commitGroup
        rw [if_neg (by rw [hne]; exact Bool.false_ne_true)]
        rw [phase2_lines]
        exact phase1_lines h es sel (List.range es.length) _ l0 hd1
      constructor
      · intro hns
        rw [hns] at hcg
        exact hcg
      · intro j hj
        rw [hj] at hcg
        exact hcg

/-- Candidate entries of the concrete conflict scenario below. -/
def witE0 : ImportEntry := ⟨"f1", 1, 10, "ta".data, some "ca".data⟩

/-- Second candidate (non-selected). -/
def witE1 : ImportEntry := ⟨"f2", 2, 11, "tb".data, none⟩

/-- Third candidate (non-selected, wins the hash). -/
def witE2 : ImportEntry := ⟨"f3", 3, 12, "tc".data, some "cc".data⟩

/-- Store with one untranslated hash entry. -/
def witDb : TranslationDb := ⟨[], [("h1".data, ⟨"jp1".data, none, none⟩)], []⟩

/-- C2 witness: one conflict group with candidates at offsets 10, 11, 12 and
index 0 selected — the selected candidate becomes the override for offset
10, and the last non-selected candidate's translation and comment become the
shared hash translation. -/
theorem commit_conflict_resolution_spec_witness :
    alookup 10 (commit_conflict_resolution witDb [("h1".data, [witE0, witE1, witE2])]
        [[0]]).overrides_by_offset = some ("ta".data, some "ca".data) ∧
    alookup "h1".data (commit_conflict_resolution witDb [("h1".data, [witE0, witE1, witE2])]
        [[0]]).line_by_hash = some ⟨"jp1".data, some "tc".data, some "cc".data⟩ := by
  have H := commit_conflict_resolution_spec witDb [("h1".data, [witE0, witE1, witE2])] [[0]]
    [] [] "h1".data [witE0, witE1, witE2] [0] (by decide) (by decide) (by decide)
    (by decide) (by decide)
  constructor
  · exact (H.2 (by decide)).1 0 (by decide)
  · exact ((H.2 (by decide)).2 ⟨"jp1".data, none, none⟩ (by decide)).2 2 (by decide)

/-! ## Scene-name comparison (`TranslationWindow.compare_scenes`)

Embedded from `translation_window.py` lines 917–982: `decimal_extract`
splits a name into maximal runs of decimal digits (parsed as integers) and
runs of other characters; the comparison walks the two token lists, a
shorter list comparing less, equal-typed tokens comparing by value
(integers numerically, strings lexicographically by code point), and
mixed-typed tokens comparing by the lexical order of the Python type names,
which puts `int` (`<class 'int'>`) before `str` (`<class 'str'>`). -/

/-- One token of `decimal_extract`'s output: an integer run or a character
run. -/
inductive SToken where
  | num (n : Nat)
  | str (s : List Char)
deriving DecidableEq, Repr

/-- The accumulator loop of `decimal_extract` (`is_chr`, `acc`, `ret`). -/
def decExtGo : List Char → Bool → List Char → List SToken → List SToken
  | [], is_chr, acc, ret =>
    if acc.isEmpty then ret
    else ret ++ [if is_chr then .str acc else .num (digitsToNat acc)]
  | c :: cs, is_chr, acc, ret =>
    if isDigitC c then
      if is_chr && !acc.isEmpty then decExtGo cs false [c] (ret ++ [.str acc])
      else decExtGo cs false (acc ++ [c]) ret
    else
      if !is_chr && !acc.isEmpty then decExtGo cs true [c] (ret ++ [.num (digitsToNat acc)])
      else decExtGo cs true (acc ++ [c]) ret

/-- `decimal_extract` of `compare_scenes`. -/
def decimal_extract (val : List Char) : List SToken := decExtGo val true [] []

/-- Python string `<`: lexicographic comparison by code point. -/
def listStrLt : List Char → List Char → Bool
  | [], [] => false
  | [], _ :: _ => true
  | _ :: _, [] => false
  | c :: cs, d :: ds =>
    if c.toNat < d.toNat then true
    else if d.toNat < c.toNat then false
    else listStrLt cs ds

/-- The comparison loop over the extracted token lists. -/
def cmpTokens : List SToken → List SToken → Int
  | [], [] => 0
  | [], _ :: _ => -1
  | _ :: _, [] => 1
  | .num x :: as, .num y :: bs =>
    if x < y then -1 else if y < x then 1 else cmpTokens as bs
  | .str x :: as, .str y :: bs =>
    if listStrLt x y then -1 else if listStrLt y x then 1 else cmpTokens as bs
  | .num _ :: _, .str _ :: _ => -1
  | .str _ :: _, .num _ :: _ => 1

/-- `TranslationWindow.compare_scenes`. -/
def compare_scenes (in_a in_b : List Char) : Int :=
  cmpTokens (decimal_extract in_a) (decimal_extract in_b)

theorem listStrLt_irrefl (x : List Char) : listStrLt x x = false := by
  induction x with
  | nil => rfl
  | cons c cs ih =>
    unfold listStrLt
    rw [if_neg (Nat.lt_irrefl c.toNat), if_neg (Nat.lt_irrefl c.toNat)]
    exact ih

theorem listStrLt_asymm : ∀ {x y : List Char}, listStrLt x y = true → listStrLt y x = false := by
  intro x
  induction x with
  | nil =>
    intro y h
    cases y with
    | nil => exact Bool.noConfusion h
    | cons d ds => rfl
  | cons c cs ih =>
    intro y h
    cases y with
    | nil => exact Bool.noConfusion h
    | cons d ds =>
      unfold listStrLt at h ⊢
      by_cases hcd : c.toNat < d.toNat
      · rw [if_neg (Nat.lt_asymm hcd), if_pos hcd]
      · rw [if_neg hcd] at h
        by_cases hdc : d.toNat < c.toNat
        · rw [if_pos hdc] at h
          exact Bool.noConfusion h
        · rw [if_neg hdc] at h
          rw [if_neg hdc, if_neg hcd]
          exact ih h

theorem cmpTokens_num_num (n m : Nat) (as bs : List SToken) :
    cmpTokens (.num n :: as) (.num m :: bs) =
      if n < m then -1 else if m < n then 1 else cmpTokens as bs := rfl

theorem cmpTokens_str_str (s s2 : List Char) (as bs : List SToken) :
    cmpTokens (.str s :: as) (.str s2 :: bs) =
      if listStrLt s s2 = true then -1
      else if listStrLt s2 s = true then 1 else cmpTokens as bs := rfl

theorem cmpTokens_refl : ∀ t : List SToken, cmpTokens t t = 0 := by
  intro t
  induction t with
  | nil => rfl
  | cons x xs ih =>
    cases x with
    | num n =>
      rw [cmpTokens_num_num, if_neg (Nat.lt_irrefl n), if_neg (Nat.lt_irrefl n)]
      exact ih
    | str s =>
      rw [cmpTokens_str_str, listStrLt_irrefl, if_neg (by decide), if_neg (by decide)]
      exact ih

theorem cmpTokens_antisymm : ∀ (a b : List SToken), cmpTokens a b = -cmpTokens b a := by
  intro a
  induction a with
  | nil =>
    intro b
    cases b with
    | nil => rfl
    | cons y ys => simp [cmpTokens]
  | cons x xs ih =>
    intro b
    cases b with
    | nil => simp [cmpTokens]
    | cons y ys =>
      cases x with
      | num n =>
        cases y with
        | num m =>
          rw [cmpTokens_num_num, cmpTokens_num_num]
          rcases Nat.lt_trichotomy n m with hlt | heq | hgt
          · rw [if_pos hlt, if_neg (Nat.lt_asymm hlt), if_pos hlt]
          · subst heq
            rw [if_neg (Nat.lt_irrefl n), if_neg (Nat.lt_irrefl n),
              if_neg (Nat.lt_irrefl n), if_neg (Nat.lt_irrefl n)]
            exact ih ys
          · rw [if_neg (Nat.lt_asymm hgt), if_pos hgt, if_pos hgt]
            decide
        | str s => simp [cmpTokens]
      | str s =>
        cases y with
        | num m => simp [cmpTokens]
        | str s2 =>
          rw [cmpTokens_str_str, cmpTokens_str_str]
          by_cases hlt : listStrLt s s2 = true
          · rw [if_pos hlt, listStrLt_asymm hlt, if_neg (by decide), if_pos hlt]
          · rw [if_neg hlt]
            by_cases hgt : listStrLt s2 s = true
            · rw [if_pos hgt, if_pos hgt]
              decide
            · rw [if_neg hgt, if_neg hgt, if_neg hlt]
              exact ih ys

theorem cmpTokens_common (S1 S2 : List SToken) :
    ∀ T : List SToken, cmpTokens (T ++ S1) (T ++ S2) = cmpTokens S1 S2 := by
  intro T
  induction T with
  | nil => rfl
  | cons t ts ih =>
    cases t with
    | num n =>
      rw [List.cons_append, List.cons_append, cmpTokens_num_num,
        if_neg (Nat.lt_irrefl n), if_neg (Nat.lt_irrefl n)]
      exact ih
    | str s =>
      rw [List.cons_append, List.cons_append, cmpTokens_str_str, listStrLt_irrefl,
        if_neg (by decide), if_neg (by decide)]
      exact ih

/-! ### Splitting `decimal_extract` around a maximal digit run -/

/-- One step of the `decimal_extract` accumulator. -/
def decExtStep (st : Bool × List Char × List SToken) (c : Char) :
    Bool × List Char × List SToken :=
  if isDigitC c then
    if st.1 && !st.2.1.isEmpty then (false, [c], st.2.2 ++ [.str st.2.1])
    else (false, st.2.1 ++ [c], st.2.2)
  else
    if !st.1 && !st.2.1.isEmpty then (true, [c], st.2.2 ++ [.num (digitsToNat st.2.1)])
    else (true, st.2.1 ++ [c], st.2.2)

/-- Flush the trailing accumulator at the end of the walk. -/
def flushState (st : Bool × List Char × List SToken) : List SToken :=
  if st.2.1.isEmpty then st.2.2
  else st.2.2 ++ [if st.1 then .str st.2.1 else .num (digitsToNat st.2.1)]

theorem decExtStep_digit_flush (c : Char) (hd : isDigitC c = true) (ic : Bool)
    (acc : List Char) (ret : List SToken) (hb : (ic && !acc.isEmpty) = true) :
    decExtStep (ic, acc, ret) c = (false, [c], ret ++ [.str acc]) := by
  unfold decExtStep
  dsimp only
  rw [if_pos hd, if_pos hb]

theorem decExtStep_digit_grow (c : Char) (hd : isDigitC c = true) (ic : Bool)
    (acc : List Char) (ret : List SToken) (hb : ¬(ic && !acc.isEmpty) = true) :
    decExtStep (ic, acc, ret) c = (false, acc ++ [c], ret) := by
  unfold decExtStep
  dsimp only
  rw [if_pos hd, if_neg hb]

theorem decExtStep_char_flush (c : Char) (hd : ¬isDigitC c = true) (ic : Bool)
    (acc : List Char) (ret : List SToken) (hb : (!ic && !acc.isEmpty) = true) :
    decExtStep (ic, acc, ret) c = (true, [c], ret ++ [.num (digitsToNat acc)]) := by
  unfold decExtStep
  dsimp only
  rw [if_neg hd, if_pos hb]

theorem decExtStep_char_grow (c : Char) (hd : ¬isDigitC c = true) (ic : Bool)
    (acc : List Char) (ret : List SToken) (hb : ¬(!ic && !acc.isEmpty) = true) :
    decExtStep (ic, acc, ret) c = (true, acc ++ [c], ret) := by
  unfold decExtStep
  dsimp only
  rw [if_neg hd, if_neg hb]

theorem decExtGo_eq_foldl (l : List Char) : ∀ (ic : Bool) (acc : List Char) (ret : List SToken),
    decExtGo l ic acc ret = flushState (l.foldl decExtStep (ic, acc, ret)) := by
  induction l with
  | nil => intro ic acc ret; rfl
  | cons c cs ih =>
    intro ic acc ret
    rw [List.foldl_cons]
    show (if isDigitC c = true then
        if (ic && !acc.isEmpty) = true then decExtGo cs false [c] (ret ++ [.str acc])
        else decExtGo cs false (acc ++ [c]) ret
      else
        if (!ic && !acc.isEmpty) = true then
          decExtGo cs true [c] (ret ++ [.num (digitsToNat acc)])
        else decExtGo cs true (acc ++ [c]) ret) = _
    by_cases hd : isDigitC c = true
    · rw [if_pos hd]
      by_cases hb : (ic && !acc.isEmpty) = true
      · rw [if_pos hb, decExtStep_digit_flush c hd ic acc ret hb, ih]
      · rw [if_neg hb, decExtStep_digit_grow c hd ic acc ret hb, ih]
    · rw [if_neg hd]
      by_cases hb : (!ic && !acc.isEmpty) = true
      · rw [if_pos hb, decExtStep_char_flush c hd ic acc ret hb, ih]
      · rw [if_neg hb, decExtStep_char_grow c hd ic acc ret hb, ih]

theorem foldl_decExtStep_ret (l : List Char) :
    ∀ (ic : Bool) (acc : List Char) (ret : List SToken),
      l.foldl decExtStep (ic, acc, ret) =
        ((l.foldl decExtStep (ic, acc, [])).1, (l.foldl decExtStep (ic, acc, [])).2.1,
          ret ++ (l.foldl decExtStep (ic, acc, [])).2.2) := by
  induction l with
  | nil => intro ic acc ret; simp
  | cons c cs ih =>
    intro ic acc ret
    rw [List.foldl_cons, List.foldl_cons]
    by_cases hd : isDigitC c = true
    · by_cases hb : (ic && !acc.isEmpty) = true
      · rw [decExtStep_digit_flush c hd ic acc ret hb, decExtStep_digit_flush c hd ic acc [] hb,
          ih false [c] (ret ++ [SToken.str acc]), ih false [c] ([] ++ [SToken.str acc])]
        simp
      · rw [decExtStep_digit_grow c hd ic acc ret hb, decExtStep_digit_grow c hd ic acc [] hb,
          ih]
    · by_cases hb : (!ic && !acc.isEmpty) = true
      · rw [decExtStep_char_flush c hd ic acc ret hb, decExtStep_char_flush c hd ic acc [] hb,
          ih true [c] (ret ++ [SToken.num (digitsToNat acc)]),
          ih true [c] ([] ++ [SToken.num (digitsToNat acc)])]
        simp
      · rw [decExtStep_char_grow c hd ic acc ret hb, decExtStep_char_grow c hd ic acc [] hb,
          ih]

theorem flushState_append (i : Bool) (a : List Char) (x r : List SToken) :
    flushState (i, a, x ++ r) = x ++ flushState (i, a, r) := by
  unfold flushState
  dsimp only
  by_cases hb : a.isEmpty = true
  · rw [if_pos hb, if_pos hb]
  · rw [if_neg hb, if_neg hb, List.append_assoc]

theorem digits_absorb {d : List Char} (hd : ∀ c ∈ d, isDigitC c = true) :
    ∀ (a : List Char) (r : List SToken),
      d.foldl decExtStep (false, a, r) = (false, a ++ d, r) := by
  induction d with
  | nil => intro a r; simp
  | cons c cs ih =>
    intro a r
    rw [List.foldl_cons,
      decExtStep_digit_grow c (hd c (List.mem_cons_self c cs)) false a r (by simp),
      ih (fun x hx => hd x (List.mem_cons_of_mem c hx)) (a ++ [c]) r]
    simp

theorem digits_from_charmode {d : List Char} (hne : d ≠ [])
    (hd : ∀ c ∈ d, isDigitC c = true) (acc : List Char) (ret : List SToken) :
    d.foldl decExtStep (true, acc, ret) =
      (false, d, ret ++ (if acc.isEmpty then [] else [.str acc])) := by
  cases d with
  | nil => exact absurd rfl hne
  | cons c cs =>
    rw [List.foldl_cons]
    by_cases hb : acc.isEmpty = true
    · have he : acc = [] := by
        cases acc with
        | nil => rfl
        | cons x xs => simp at hb
      subst he
      rw [decExtStep_digit_grow c (hd c (List.mem_cons_self c cs)) true [] ret (by decide)]
      rw [digits_absorb (fun x hx => hd x (List.mem_cons_of_mem c hx)) ([] ++ [c]) ret]
      simp
    · rw [decExtStep_digit_flush c (hd c (List.mem_cons_self c cs)) true acc ret
        (by simp [hb])]
      rw [digits_absorb (fun x hx => hd x (List.mem_cons_of_mem c hx)) [c] _]
      rw [if_neg hb]
      rfl

theorem flushState_charmode (acc : List Char) (ret : List SToken) :
    flushState (true, acc, ret) = ret ++ (if acc.isEmpty then [] else [.str acc]) := by
  unfold flushState
  dsimp only
  by_cases hb : acc.isEmpty = true
  · rw [if_pos hb, if_pos hb, List.append_nil]
  · rw [if_neg hb, if_neg hb, if_pos rfl]

theorem flushState_numflush (d : List Char) (hdf : d.isEmpty = false) (r : List SToken) :
    flushState (false, d, r) = r ++ [.num (digitsToNat d)] := by
  unfold flushState
  dsimp only
  rw [if_neg (by rw [hdf]; decide), if_neg (by decide)]

theorem end_nondigit_state {p : List Char} {c : Char} (hc : isDigitC c = false)
    (st : Bool × List Char × List SToken) :
    ((p ++ [c]).foldl decExtStep st).1 = true ∧ ((p ++ [c]).foldl decExtStep st).2.1 ≠ [] := by
  rw [List.foldl_append, List.foldl_cons, List.foldl_nil]
  have heta : p.foldl decExtStep st =
      ((p.foldl decExtStep st).1, (p.foldl decExtStep st).2.1, (p.foldl decExtStep st).2.2) :=
    rfl
  rw [heta]
  by_cases hb : (!(p.foldl decExtStep st).1 && !(p.foldl decExtStep st).2.1.isEmpty) = true
  · rw [decExtStep_char_flush c (by rw [hc]; decide) _ _ _ hb]
    exact ⟨rfl, by simp⟩
  · rw [decExtStep_char_grow c (by rw [hc]; decide) _ _ _ hb]
    refine ⟨rfl, ?_⟩
    intro hcon
    simp at hcon

theorem digits_from_charmode2 {d : List Char} (hne : d ≠ [])
    (hd : ∀ c ∈ d, isDigitC c = true) (st : Bool × List Char × List SToken)
    (h1 : st.1 = true) :
    d.foldl decExtStep st =
      (false, d, st.2.2 ++ (if st.2.1.isEmpty then [] else [.str st.2.1])) := by
  have heta : st = (st.1, st.2.1, st.2.2) := rfl
  rw [heta, h1]
  exact digits_from_charmode hne hd st.2.1 st.2.2

theorem flushState_charmode2 (st : Bool × List Char × List SToken) (h1 : st.1 = true) :
    flushState st = st.2.2 ++ (if st.2.1.isEmpty then [] else [.str st.2.1]) := by
  have heta : st = (st.1, st.2.1, st.2.2) := rfl
  rw [heta, h1]
  exact flushState_charmode st.2.1 st.2.2

theorem decimal_extract_split {p : List Char}
    (hp : p = [] ∨ ∃ c, p.getLast? = some c ∧ isDigitC c = false)
    {d : List Char} (hdne : d ≠ []) (hd : ∀ c ∈ d, isDigitC c = true)
    {s : List Char} (hs : s = [] ∨ ∃ c, s.head? = some c ∧ isDigitC c = false) :
    decimal_extract (p ++ d ++ s) =
      decimal_extract p ++ .num (digitsToNat d) :: decimal_extract s := by
  have hstate : (p.foldl decExtStep (true, [], [])).1 = true := by
    rcases hp with rfl | ⟨c, hlast, hc⟩
    · rfl
    · have hpne : p ≠ [] := by
        intro hcon
        rw [hcon] at hlast
        exact Option.noConfusion hlast
      have hcc : p.getLast hpne = c := by
        have hx := List.getLast?_eq_getLast_of_ne_nil hpne
        rw [hx] at hlast
        injection hlast
      have hsplit : p.dropLast ++ [c] = p := by
        rw [← hcc]
        exact List.dropLast_append_getLast hpne
      rw [← hsplit]
      exact (end_nondigit_state hc _).1
  have hdfalse : d.isEmpty = false := by
    cases d with
    | nil => exact absurd rfl hdne
    | cons a b => rfl
  unfold decimal_extract
  rw [decExtGo_eq_foldl, decExtGo_eq_foldl, decExtGo_eq_foldl,
    List.append_assoc, List.foldl_append, List.foldl_append]
  rw [digits_from_charmode2 hdne hd _ hstate]
  rw [flushState_charmode2 _ hstate]
  rcases hs with rfl | ⟨c, hhead, hc⟩
  · simp only [List.foldl_nil]
    rw [flushState_numflush d hdfalse,
      show flushState (true, ([] : List Char), ([] : List SToken)) = [] from rfl]
  · cases s with
    | nil => exact Option.noConfusion hhead
    | cons c0 s' =>
      have hc0 : c0 = c := by injection hhead
      subst hc0
      rw [List.foldl_cons, List.foldl_cons]
      rw [decExtStep_char_flush c0 (by rw [hc]; decide) false d _ (by rw [hdfalse]; rfl)]
      rw [decExtStep_char_grow c0 (by rw [hc]; decide) true [] [] (by decide)]
      simp only [List.nil_append]
      rw [foldl_decExtStep_ret s' true [c0]]
      rw [flushState_append]
      simp

/-- C10: `compare_scenes` is a consistent strict comparison: it is reflexive
(`compare_scenes a a = 0`) and antisymmetric
(`compare_scenes a b = -compare_scenes b a`); and two names that differ only
in one maximal decimal-digit run (same prefix ending in a non-digit or empty,
same suffix starting with a non-digit or empty) are ordered by the numeric
value of that run, so equal values under zero padding compare equal. -/
theorem compare_scenes_spec :
    (∀ a : List Char, compare_scenes a a = 0) ∧
    (∀ a b : List Char, compare_scenes a b = -compare_scenes b a) ∧
    (∀ (p d1 d2 s : List Char),
      (p = [] ∨ ∃ c, p.getLast? = some c ∧ isDigitC c = false) →
      (s = [] ∨ ∃ c, s.head? = some c ∧ isDigitC c = false) →
      d1 ≠ [] → (∀ c ∈ d1, isDigitC c = true) →
      d2 ≠ [] → (∀ c ∈ d2, isDigitC c = true) →
      compare_scenes (p ++ d1 ++ s) (p ++ d2 ++ s) =
        if digitsToNat d1 < digitsToNat d2 then -1
        else if digitsToNat d2 < digitsToNat d1 then 1 else 0) := by
  refine ⟨fun a => cmpTokens_refl _, fun a b => cmpTokens_antisymm _ _, ?_⟩
  intro p d1 d2 s hp hs h1ne h1d h2ne h2d
  unfold compare_scenes
  rw [decimal_extract_split hp h1ne h1d hs, decimal_extract_split hp h2ne h2d hs,
    cmpTokens_common, cmpTokens_num_num]
  by_cases hlt : digitsToNat d1 < digitsToNat d2
  · rw [if_pos hlt, if_pos hlt]
  · rw [if_neg hlt, if_neg hlt]
    by_cases hgt : digitsToNat d2 < digitsToNat d1
    · rw [if_pos hgt, if_pos hgt]
    · rw [if_neg hgt, if_neg hgt]
      exact cmpTokens_refl _

/-- C10 witness: `arc_2_x` sorts before `arc_10_x` (digit runs compared by
value), and `a01b` compares equal to `a1b` (zero padding ignored). -/
theorem compare_scenes_spec_witness :
    compare_scenes "arc_2_x".data "arc_10_x".data = -1 ∧
    compare_scenes "a01b".data "a1b".data = 0 := by
  have h := compare_scenes_spec.2.2
  constructor
  · have h2 := h "arc_".data "2".data "10".data "_x".data
      (Or.inr ⟨'_', by decide, by decide⟩) (Or.inr ⟨'_', by decide, by decide⟩)
      (by decide) (by decide) (by decide) (by decide)
    rw [show ("arc_2_x".data : List Char) = "arc_".data ++ "2".data ++ "_x".data from rfl,
      show ("arc_10_x".data : List Char) = "arc_".data ++ "10".data ++ "_x".data from rfl,
      h2]
    decide
  · have h2 := h "a".data "01".data "1".data "b".data
      (Or.inr ⟨'a', by decide, by decide⟩) (Or.inr ⟨'b', by decide, by decide⟩)
      (by decide) (by decide) (by decide) (by decide)
    rw [show ("a01b".data : List Char) = "a".data ++ "01".data ++ "b".data from rfl,
      show ("a1b".data : List Char) = "a".data ++ "1".data ++ "b".data from rfl,
      h2]
    decide

end DeepLuna

